import Mathlib

/-!
Verification of the PathSnap tree builder (`DirectoryTreeApp.search_directory`
in `src/app.py`, lines 406-495).

The filesystem is modelled as a static tree of entries (`FSEntry`).  A run of
`search_directory` is modelled as a pure function of
  * the root path string (`startDir`),
  * the root's contents (`Option (List FSEntry)`; `none` models a path that is
    not an existing directory, the entry list is in `os.listdir` order),
  * `max_depth`, `show_option`, `ignored_folders`,
  * the cancellation flag, modelled as the sequence of results of the
    `self.stop_event.is_set()` calls: `cancel : Nat → Bool`, where the n-th
    check made during the run reads `cancel n`.
The function returns the sequence of values put on `self.queue` (text lines
and the final `None` end-of-stream marker) together with the final value of
`self.items_processed`.
-/

namespace PathSnap

/-- A filesystem entry: a directory with contents (in listing order) or a file. -/
inductive FSEntry where
  | dir (name : String) (contents : List FSEntry)
  | file (name : String)
deriving Repr

/-- The name of an entry. -/
def FSEntry.name : FSEntry → String
  | .dir n _ => n
  | .file n => n

/-- Whether an entry is a directory (`os.path.isdir` on a listed entry). -/
def FSEntry.isDir : FSEntry → Bool
  | .dir _ _ => true
  | .file _ => false

/-- Names of the subdirectories of a listing, in listing order
(the `dirs` component of an `os.walk` triple). -/
def dirNames : List FSEntry → List String
  | [] => []
  | .dir n _ :: es => n :: dirNames es
  | .file _ :: es => dirNames es

/-- Names of the files of a listing, in listing order
(the `files` component of an `os.walk` triple). -/
def fileNames : List FSEntry → List String
  | [] => []
  | .dir _ _ :: es => fileNames es
  | .file n :: es => n :: fileNames es

/-- Python's `sorted` on a list of strings (lexicographic). -/
def sortStr (l : List String) : List String :=
  l.mergeSort (fun a b => decide (a ≤ b))

/-- Find the contents of the first directory entry with the given name. -/
def findDir : List FSEntry → String → Option (List FSEntry)
  | [], _ => none
  | .dir n cs :: es, m => if n = m then some cs else findDir es m
  | .file _ :: es, m => findDir es m

/-- Resolve a relative component path against a listing
(`os.path.join(start_dir, ...)` followed by `os.listdir`); `none` models the
`OSError` raised when the path does not name a directory. -/
def resolvePath : List FSEntry → List String → Option (List FSEntry)
  | cs, [] => some cs
  | cs, n :: rest =>
    match findDir cs n with
    | some cs2 => resolvePath cs2 rest
    | none => none

/-- Depth as the code computes it (`0 if rel_path == "." else len(rel_path.split(os.sep))`);
the root's relative component list is `[]`. -/
def pyDepth (relParts : List String) : Nat :=
  if relParts = [] then 0 else relParts.length

/-- One element of `all_paths`: `(root, depth, sorted(filtered_dirs), sorted(files))`
with the absolute path replaced by its components relative to `start_dir`. -/
structure WalkItem where
  relParts : List String
  depth : Nat
  dirs : List String
  files : List String
deriving Repr, DecidableEq

/-- A stop event that is never set. -/
def noCancel : Nat → Bool := fun _ => false

mutual
/-- Phase 1 of `search_directory` (lines 414-439): the `os.walk` loop that
fills `all_paths`.  Visiting a directory first reads the stop event (one check
per visited directory, `break` on `true`), then applies the depth filter
(`continue` skips the append and the ignore-filtering but `os.walk` still
descends into all children), otherwise removes ignored names from `dirs`
(pruning the descent) and appends the item.  Returns the collected items, the
next check index and whether the loop was broken. -/
def walkDir (maxD : Int) (ign : List String) (cancel : Nat → Bool)
    (relParts : List String) (contents : List FSEntry) (c : Nat) :
    List WalkItem × Nat × Bool :=
  if cancel c then ([], c + 1, true)
  else
    let depth := pyDepth relParts
    if 0 ≤ maxD ∧ (depth : Int) > maxD then
      walkChildren maxD ign cancel relParts false contents (c + 1)
    else
      let filteredDirs := (dirNames contents).filter (fun n => n ∉ ign)
      let item : WalkItem :=
        ⟨relParts, depth, sortStr filteredDirs, sortStr (fileNames contents)⟩
      let r := walkChildren maxD ign cancel relParts true contents (c + 1)
      (item :: r.1, r.2)
  termination_by (sizeOf contents, 1)

/-- Descent of `os.walk` into the (possibly ignore-filtered) subdirectories of
a listing, in listing order; a `break` in the loop body stops the whole walk. -/
def walkChildren (maxD : Int) (ign : List String) (cancel : Nat → Bool)
    (relParts : List String) (doFilter : Bool) (contents : List FSEntry) (c : Nat) :
    List WalkItem × Nat × Bool :=
  match contents with
  | [] => ([], c, false)
  | .file _ :: es => walkChildren maxD ign cancel relParts doFilter es c
  | .dir n cs :: es =>
    if doFilter ∧ n ∈ ign then walkChildren maxD ign cancel relParts doFilter es c
    else
      let r := walkDir maxD ign cancel (relParts ++ [n]) cs c
      if r.2.2 then (r.1, r.2.1, true)
      else
        let r2 := walkChildren maxD ign cancel relParts doFilter es r.2.1
        (r.1 ++ r2.1, r2.2)
  termination_by (sizeOf contents, 0)
end

/-- The `is_last` computation for the final prefix segment (lines 458-470):
default `True`; the re-listing probe runs only under the guard
`i < len(path_parts) - 1`, re-lists the joined path `path_parts[:i+1]`,
keeps directories only, and compares against `sorted(...)[-1]`; any `OSError`
(here: failed resolution) leaves `is_last = True`. -/
def isLastProbe (rootContents : List FSEntry) (pathParts : List String) (i : Nat) : Bool :=
  if i < pathParts.length - 1 then
    match resolvePath rootContents (pathParts.take (i + 1)) with
    | none => true
    | some cs =>
      let dirsInParent := dirNames cs
      let nm := pathParts.getD i ""
      if nm ∈ dirsInParent then nm == (sortStr dirsInParent).getLastD "" else true
  else true

/-- The prefix built for a directory line (lines 456-477): for `i` in
`range(depth)`, the final index gets `"└── "`/`"├── "` from `is_last`, the
other indices get `"│   "`. -/
def prefixFor (rootContents : List FSEntry) (pathParts : List String) (depth : Nat) : String :=
  String.join ((List.range depth).map (fun i =>
    if i = depth - 1 then
      (if isLastProbe rootContents pathParts i then "└── " else "├── ")
    else "│   "))

/-- The file loop of one emission iteration (lines 483-490): one stop-event
check before each file line, `break` leaves the remaining files unemitted;
`is_last_file = (i == len(files) - 1) and show_option != "both"`.  Arguments:
remaining files, current index `i`, check counter, `items_processed`. -/
def emitFiles (pfx : String) (showOption : String) (cancel : Nat → Bool) (total : Nat) :
    List String → Nat → Nat → Nat → List String × Nat × Nat
  | [], _, c, cnt => ([], c, cnt)
  | f :: fs, i, c, cnt =>
    if cancel c then ([], c + 1, cnt)
    else
      let isLastFile := i == total - 1 && showOption != "both"
      let fp := if isLastFile then "└── " else "├── "
      let r := emitFiles pfx showOption cancel total fs (i + 1) (c + 1) (cnt + 1)
      ((pfx ++ fp ++ f) :: r.1, r.2)

/-- Phase 2 of `search_directory` (lines 444-490): one stop-event check per
`all_paths` entry (`break` on `true`), the root entry (`depth == 0`) is
skipped, every other entry emits its directory line and, when
`show_option in ["both", "files"]`, its file lines.  Returns the emitted
lines, the next check index and the final `items_processed`. -/
def emitItems (rootContents : List FSEntry) (showOption : String) (cancel : Nat → Bool) :
    List WalkItem → Nat → Nat → List String × Nat × Nat
  | [], c, cnt => ([], c, cnt)
  | item :: rest, c, cnt =>
    if cancel c then ([], c + 1, cnt)
    else if item.depth == 0 then emitItems rootContents showOption cancel rest (c + 1) cnt
    else
      let pathParts := item.relParts
      let pfx := prefixFor rootContents pathParts item.depth
      let dirLine := pfx ++ pathParts.getLastD "" ++ "/"
      if showOption == "both" || showOption == "files" then
        let rf := emitFiles pfx showOption cancel item.files.length item.files 0 (c + 1) cnt
        let rr := emitItems rootContents showOption cancel rest rf.2.1 rf.2.2
        (dirLine :: (rf.1 ++ rr.1), rr.2)
      else
        let rr := emitItems rootContents showOption cancel rest (c + 1) cnt
        (dirLine :: rr.1, rr.2)

/-- A value put on `self.queue`: a text line or the final `None` marker. -/
inductive QItem where
  | line (s : String)
  | endMarker
deriving Repr, DecidableEq

/-- The observable outcome of one run: the queue contents in order and the
final `items_processed` counter. -/
structure SearchResult where
  queue : List QItem
  itemsProcessed : Nat
deriving Repr, DecidableEq

/-- `os.path.basename` of a POSIX path string: everything after the last `'/'`. -/
def basename (s : String) : String :=
  ⟨(s.data.reverse.takeWhile (fun c => c ≠ '/')).reverse⟩

/-- The whole of `DirectoryTreeApp.search_directory` (lines 406-495).
`fsRoot = none` models `not os.path.isdir(start_dir)`; otherwise `fsRoot`
holds the root's listing.  The header line `basename(start_dir) + "/"` is put
after phase 1 and before phase 2 (line 442), `None` is put at line 492.  The
static tree raises no exception, so the `except` branch (line 494) is never
taken for a valid root. -/
def search_directory (startDir : String) (fsRoot : Option (List FSEntry))
    (maxDepth : Int) (showOption : String) (ignoredFolders : List String)
    (cancel : Nat → Bool) : SearchResult :=
  match fsRoot with
  | none => ⟨[.line ("Error: Directory not found - " ++ startDir)], 0⟩
  | some contents =>
    let w := walkDir maxDepth ignoredFolders cancel [] contents 0
    let header := basename startDir ++ "/"
    let e := emitItems contents showOption cancel w.1 w.2.1 0
    ⟨.line header :: (e.1.map .line ++ [.endMarker]), e.2.2⟩

/-- The text lines of a run, in order (the queue without the end marker). -/
def outputLines (r : SearchResult) : List String :=
  r.queue.filterMap (fun q => match q with | .line s => some s | .endMarker => none)

/-! ## Pure (cancellation-free) descriptions of the two phases -/

mutual
/-- The `all_paths` list produced by phase 1 when the stop event never fires. -/
def walkItems (maxD : Int) (ign : List String) (relParts : List String)
    (contents : List FSEntry) : List WalkItem :=
  let depth := pyDepth relParts
  if 0 ≤ maxD ∧ (depth : Int) > maxD then
    walkItemsChildren maxD ign relParts false contents
  else
    ⟨relParts, depth, sortStr ((dirNames contents).filter (fun n => n ∉ ign)),
      sortStr (fileNames contents)⟩
      :: walkItemsChildren maxD ign relParts true contents
  termination_by (sizeOf contents, 1)

/-- Contribution of the subdirectories of a listing to `walkItems`. -/
def walkItemsChildren (maxD : Int) (ign : List String) (relParts : List String)
    (doFilter : Bool) : List FSEntry → List WalkItem
  | [] => []
  | .file _ :: es => walkItemsChildren maxD ign relParts doFilter es
  | .dir n cs :: es =>
    if doFilter ∧ n ∈ ign then walkItemsChildren maxD ign relParts doFilter es
    else walkItems maxD ign (relParts ++ [n]) cs ++ walkItemsChildren maxD ign relParts doFilter es
  termination_by es => (sizeOf es, 0)
end

mutual
/-- Number of directories phase 1 visits (= stop-event checks it performs)
below and including a directory of the given depth and contents. -/
def visitCount (maxD : Int) (ign : List String) (depth : Nat)
    (contents : List FSEntry) : Nat :=
  if 0 ≤ maxD ∧ (depth : Int) > maxD then
    1 + visitCountChildren maxD ign depth false contents
  else
    1 + visitCountChildren maxD ign depth true contents
  termination_by (sizeOf contents, 1)

/-- Visits contributed by the subdirectories of a listing. -/
def visitCountChildren (maxD : Int) (ign : List String) (depth : Nat)
    (doFilter : Bool) : List FSEntry → Nat
  | [] => 0
  | .file _ :: es => visitCountChildren maxD ign depth doFilter es
  | .dir n cs :: es =>
    if doFilter ∧ n ∈ ign then visitCountChildren maxD ign depth doFilter es
    else visitCount maxD ign (depth + 1) cs + visitCountChildren maxD ign depth doFilter es
  termination_by es => (sizeOf es, 0)
end

/-- The file lines phase 2 emits for one entry when the stop event never
fires: files in stored (sorted) order, `"└── "` exactly for the final file
when `show_option != "both"`, else `"├── "`. -/
def renderFileLines (pfx showOption : String) (files : List String) : List String :=
  files.enum.map (fun p =>
    pfx ++ (if p.1 == files.length - 1 && showOption != "both" then "└── " else "├── ") ++ p.2)

/-- The lines phase 2 emits for one `all_paths` entry when the stop event
never fires: nothing for the root entry, otherwise the directory line
followed by the file lines when the mode includes files. -/
def renderItem (rootContents : List FSEntry) (showOption : String) (item : WalkItem) :
    List String :=
  if item.depth == 0 then []
  else
    let pfx := prefixFor rootContents item.relParts item.depth
    let dirLine := pfx ++ item.relParts.getLastD "" ++ "/"
    if showOption == "both" || showOption == "files" then
      dirLine :: renderFileLines pfx showOption item.files
    else [dirLine]

/-! ## Specification-side definitions (for the refinement claims) -/

/-- Modelled from the spec: the full recursive listing of the names in a
subtree, "minus ignored subtrees and all their descendants" (spec section 8;
only directory names are tested against the ignore set). -/
def specListing (ign : List String) : List FSEntry → List String
  | [] => []
  | .file n :: es => n :: specListing ign es
  | .dir n cs :: es =>
    if n ∈ ign then specListing ign es
    else (n :: specListing ign cs) ++ specListing ign es

/-- Modelled from the spec, amended: the same recursive listing but without
the files located directly in the root directory (which the code never
emits). -/
def specListingNoRootFiles (ign : List String) : List FSEntry → List String
  | [] => []
  | .file _ :: es => specListingNoRootFiles ign es
  | .dir n cs :: es =>
    if n ∈ ign then specListingNoRootFiles ign es
    else (n :: specListing ign cs) ++ specListingNoRootFiles ign es

/-- Number of directories in a listing's subtrees reachable without passing
through an ignored directory name (each reachable directory counted once). -/
def reachableDirCount (ign : List String) : List FSEntry → Nat
  | [] => 0
  | .file _ :: es => reachableDirCount ign es
  | .dir n cs :: es =>
    if n ∈ ign then reachableDirCount ign es
    else 1 + reachableDirCount ign cs + reachableDirCount ign es

/-- A component path that names a directory reachable from the listing
without passing through an ignored directory name. -/
def validDirPath (ign : List String) : List FSEntry → List String → Prop
  | _, [] => True
  | es, n :: rest =>
    match findDir es n with
    | some cs => n ∉ ign ∧ validDirPath ign cs rest
    | none => False

instance : ∀ es parts, Decidable (validDirPath ign es parts) := fun es parts => by
  induction parts generalizing es with
  | nil => exact .isTrue trivial
  | cons n rest ih =>
    unfold validDirPath
    cases findDir es n with
    | none => exact .isFalse id
    | some cs => exact @instDecidableAnd _ _ _ (ih cs)

/-- Names that cannot be confused with the connector-glyph formatting:
nonempty, no path separator, and not starting with a glyph character. -/
def wfName (s : String) : Prop :=
  s.data ≠ [] ∧ '/' ∉ s.data ∧ s.data.headD ' ' ∉ (['│', '└', '├'] : List Char)

instance : DecidablePred wfName := fun s => by unfold wfName; infer_instance

mutual
/-- All names in an entry are well formed. -/
def wfEntry : FSEntry → Prop
  | .dir n cs => wfName n ∧ wfEntries cs
  | .file n => wfName n
  termination_by e => (sizeOf e, 1)

/-- All names in a listing are well formed. -/
def wfEntries : List FSEntry → Prop
  | [] => True
  | e :: es => wfEntry e ∧ wfEntries es
  termination_by es => (sizeOf es, 0)
end

mutual
instance wfEntry.dec : ∀ e, Decidable (wfEntry e)
  | .dir n cs => by unfold wfEntry; exact @instDecidableAnd _ _ _ (wfEntries.dec cs)
  | .file n => by unfold wfEntry; infer_instance
  termination_by e => (sizeOf e, 1)

instance wfEntries.dec : ∀ es, Decidable (wfEntries es)
  | [] => by unfold wfEntries; infer_instance
  | e :: es => by unfold wfEntries; exact @instDecidableAnd _ _ (wfEntry.dec e) (wfEntries.dec es)
  termination_by es => (sizeOf es, 0)
end

/-- The three connector/indent segments, as character lists. -/
def glyphSegs : List (List Char) := ["│   ".data, "└── ".data, "├── ".data]

/-- Remove leading connector/indent segments from a character list. -/
def stripGlyphs : List Char → List Char
  | c1 :: c2 :: c3 :: c4 :: rest =>
    if [c1, c2, c3, c4] ∈ glyphSegs then stripGlyphs rest else c1 :: c2 :: c3 :: c4 :: rest
  | l => l

/-- Remove a trailing `'/'`. -/
def dropSlash (l : List Char) : List Char :=
  if l.getLast? = some '/' then l.dropLast else l

/-- The entry name carried by an emitted line, ignoring the connector-glyph
formatting: leading glyph segments and a trailing slash are removed. -/
def stripLine (s : String) : String :=
  ⟨dropSlash (stripGlyphs s.data)⟩

/-- Whether a line is a folder line (ends in `'/'`). -/
def isDirLine (s : String) : Bool :=
  s.data.getLast? == some '/'

/-! ## Basic lemmas -/

theorem pyDepth_eq (p : List String) : pyDepth p = p.length := by
  cases p <;> simp [pyDepth]

theorem pyDepth_concat (p : List String) (n : String) :
    pyDepth (p ++ [n]) = pyDepth p + 1 := by
  simp [pyDepth_eq]

theorem mem_sortStr {x : String} {l : List String} : x ∈ sortStr l ↔ x ∈ l := by
  simp [sortStr, List.mem_mergeSort]

theorem sortStr_pairwise (l : List String) :
    List.Pairwise (· ≤ ·) (sortStr l) := by
  have h := @List.sorted_mergeSort String (fun a b : String => decide (a ≤ b))
    (fun a b c hab hbc => by
      simp only [decide_eq_true_eq] at *; exact le_trans hab hbc)
    (fun a b => by
      simp only [Bool.or_eq_true, decide_eq_true_eq]; exact le_total a b) l
  exact h.imp (fun h => by simpa using h)

theorem outputLines_mk (h : String) (ls : List String) (k : Nat) :
    outputLines ⟨QItem.line h :: (ls.map QItem.line ++ [QItem.endMarker]), k⟩ = h :: ls := by
  simp only [outputLines, List.filterMap_cons, List.filterMap_append, List.filterMap_map]
  have hc : ((fun q => match q with | QItem.line s => some s | QItem.endMarker => none)
      ∘ QItem.line) = (fun s : String => some s) := rfl
  rw [hc]
  simp [List.filterMap_some]

/-! ## Phase 1 without cancellation -/

mutual
theorem walkDir_noCancel (maxD : Int) (ign : List String) (p : List String)
    (cs : List FSEntry) (c : Nat) :
    walkDir maxD ign noCancel p cs c
      = (walkItems maxD ign p cs, c + visitCount maxD ign (pyDepth p) cs, false) := by
  rw [walkDir, walkItems, visitCount]
  by_cases hb : 0 ≤ maxD ∧ (pyDepth p : Int) > maxD
  · simp only [noCancel, Bool.false_eq_true, if_false, hb, if_true]
    rw [walkChildren_noCancel]
    simp [Nat.add_assoc, Nat.add_comm 1]
  · simp only [noCancel, Bool.false_eq_true, if_false, hb, if_false]
    rw [walkChildren_noCancel]
    simp [Nat.add_assoc, Nat.add_comm 1]
  termination_by (sizeOf cs, 1)

theorem walkChildren_noCancel (maxD : Int) (ign : List String) (p : List String)
    (b : Bool) (cs : List FSEntry) (c : Nat) :
    walkChildren maxD ign noCancel p b cs c
      = (walkItemsChildren maxD ign p b cs,
          c + visitCountChildren maxD ign (pyDepth p) b cs, false) := by
  match cs with
  | [] => rw [walkChildren]; simp [walkItemsChildren, visitCountChildren]
  | .file f :: es =>
    rw [walkChildren]
    simpa [walkItemsChildren, visitCountChildren] using walkChildren_noCancel maxD ign p b es c
  | .dir n cs2 :: es =>
    rw [walkChildren]
    by_cases hn : b ∧ n ∈ ign
    · simpa [walkItemsChildren, visitCountChildren, hn] using
        walkChildren_noCancel maxD ign p b es c
    · simp only [hn, if_false]
      rw [walkDir_noCancel]
      simp only []
      rw [walkChildren_noCancel]
      simp [walkItemsChildren, visitCountChildren, hn, pyDepth_concat, pyDepth_eq,
        Nat.add_assoc]
  termination_by (sizeOf cs, 0)
end

/-! ## Phase 2 without cancellation -/

theorem emitFiles_noCancel (pfx so : String) (total : Nat) (fs : List String)
    (i c cnt : Nat) :
    (emitFiles pfx so noCancel total fs i c cnt).1
      = (fs.enumFrom i).map (fun q =>
          pfx ++ (if q.1 == total - 1 && so != "both" then "└── " else "├── ") ++ q.2) := by
  induction fs generalizing i c cnt with
  | nil => simp [emitFiles]
  | cons f fs ih => simp [emitFiles, noCancel, List.enumFrom, ih]

theorem emitItems_noCancel (rc : List FSEntry) (so : String) (items : List WalkItem)
    (c cnt : Nat) :
    (emitItems rc so noCancel items c cnt).1 = items.flatMap (renderItem rc so) := by
  induction items generalizing c cnt with
  | nil => simp [emitItems]
  | cons item rest ih =>
    simp only [emitItems, noCancel, Bool.false_eq_true, if_false, List.flatMap_cons]
    by_cases h0 : item.depth == 0
    · simp [h0, renderItem, ih]
    · simp only [h0, if_false]
      by_cases hso : (so == "both" || so == "files") = true
      · simp only [hso, if_true]
        simp [renderItem, h0, hso, renderFileLines, emitFiles_noCancel, ih, List.enum]
      · simp only [hso, if_false]
        simp only [Bool.not_eq_true] at hso
        simp [renderItem, h0, hso, ih]

/-! ## The full run without cancellation -/

theorem search_queue_noCancel (sd : String) (contents : List FSEntry) (maxD : Int)
    (so : String) (ign : List String) :
    (search_directory sd (some contents) maxD so ign noCancel).queue
      = QItem.line (basename sd ++ "/")
          :: (((walkItems maxD ign [] contents).flatMap (renderItem contents so)).map QItem.line
              ++ [QItem.endMarker]) := by
  simp [search_directory, walkDir_noCancel, emitItems_noCancel]

theorem outputLines_noCancel (sd : String) (contents : List FSEntry) (maxD : Int)
    (so : String) (ign : List String) :
    outputLines (search_directory sd (some contents) maxD so ign noCancel)
      = (basename sd ++ "/")
          :: (walkItems maxD ign [] contents).flatMap (renderItem contents so) := by
  unfold outputLines
  rw [search_queue_noCancel]
  simp only [List.filterMap_cons, List.filterMap_append, List.filterMap_map]
  have hc : ((fun q => match q with | QItem.line s => some s | QItem.endMarker => none)
      ∘ QItem.line) = (fun s : String => some s) := rfl
  rw [hc]
  simp [List.filterMap_some]

/-! ## The sibling probe is dead code

For an emitted entry, `path_parts` has exactly `depth` components, so at the
final index `i = depth - 1` the guard `i < len(path_parts) - 1` fails and
`is_last` keeps its default `True`. -/

theorem isLastProbe_final (rc : List FSEntry) (parts : List String) :
    isLastProbe rc parts (parts.length - 1) = true := by
  unfold isLastProbe
  simp

theorem join_concat (l : List String) (x : String) :
    String.join (l ++ [x]) = String.join l ++ x := by
  apply String.ext
  simp [String.data_join, String.data_append, List.flatten_append]

theorem prefixFor_dead_probe (rc : List FSEntry) (parts : List String) (h : parts ≠ []) :
    prefixFor rc parts parts.length
      = String.join (List.replicate (parts.length - 1) "│   ") ++ "└── " := by
  unfold prefixFor
  obtain ⟨k, hk⟩ : ∃ k, parts.length = k + 1 := by
    cases parts with
    | nil => exact absurd rfl h
    | cons a l => exact ⟨l.length, by simp⟩
  rw [hk, List.range_succ, List.map_append]
  have h1 : (List.range k).map (fun i =>
      if i = k + 1 - 1 then (if isLastProbe rc parts i then "└── " else "├── ") else "│   ")
      = List.replicate k "│   " := by
    rw [List.map_eq_iff.mpr]
    intro i
    by_cases hik : i < k
    · simp [List.getElem?_range hik, List.getElem?_replicate, hik, Nat.ne_of_lt hik]
    · rw [List.getElem?_eq_none (by simpa using hik), List.getElem?_eq_none (by simpa using hik)]
      simp
  have h2 : isLastProbe rc parts k = true := by
    have := isLastProbe_final rc parts
    rwa [hk, Nat.add_sub_cancel] at this
  rw [h1]
  simp [h2, join_concat]

/-! ## Out-of-bound subtrees produce no items -/

mutual
theorem walkItems_nil (maxD : Int) (ign : List String) (p : List String)
    (cs : List FSEntry) (h0 : 0 ≤ maxD) (hd : maxD < (pyDepth p : Int)) :
    walkItems maxD ign p cs = [] := by
  rw [walkItems]
  rw [if_pos ⟨h0, hd⟩]
  exact walkItemsChildren_nil maxD ign p false cs h0 (le_of_lt hd)
  termination_by (sizeOf cs, 1)

theorem walkItemsChildren_nil (maxD : Int) (ign : List String) (p : List String)
    (b : Bool) (cs : List FSEntry) (h0 : 0 ≤ maxD) (hd : maxD ≤ (pyDepth p : Int)) :
    walkItemsChildren maxD ign p b cs = [] := by
  match cs with
  | [] => rw [walkItemsChildren]
  | .file f :: es =>
    rw [walkItemsChildren]
    exact walkItemsChildren_nil maxD ign p b es h0 hd
  | .dir n cs2 :: es =>
    rw [walkItemsChildren]
    by_cases hn : b ∧ n ∈ ign
    · rw [if_pos hn]
      exact walkItemsChildren_nil maxD ign p b es h0 hd
    · rw [if_neg hn]
      rw [walkItems_nil maxD ign (p ++ [n]) cs2 h0
        (by rw [pyDepth_concat]; push_cast; omega)]
      rw [List.nil_append]
      exact walkItemsChildren_nil maxD ign p b es h0 hd
  termination_by (sizeOf cs, 0)
end

/-! ## Invariants of the collected items -/

theorem wfEntries_nil : wfEntries [] := by
  rw [wfEntries]
  trivial

theorem wfEntries_cons_iff (e : FSEntry) (es : List FSEntry) :
    wfEntries (e :: es) ↔ wfEntry e ∧ wfEntries es := by
  rw [wfEntries]

theorem wfEntry_dir_iff (n : String) (cs : List FSEntry) :
    wfEntry (.dir n cs) ↔ wfName n ∧ wfEntries cs := by
  rw [wfEntry]

theorem wfEntry_file_iff (n : String) :
    wfEntry (.file n) ↔ wfName n := by
  rw [wfEntry]

theorem wfEntries_fileNames {cs : List FSEntry} (h : wfEntries cs) :
    ∀ f ∈ fileNames cs, wfName f := by
  induction cs with
  | nil => simp [fileNames]
  | cons e es ih =>
    rw [wfEntries_cons_iff] at h
    cases e with
    | dir n cs2 => simpa [fileNames] using ih h.2
    | file n =>
      rw [wfEntry_file_iff] at h
      simp only [fileNames, List.mem_cons]
      rintro f (rfl | hf)
      · exact h.1
      · exact ih h.2 f hf

theorem wfEntries_dirNames {cs : List FSEntry} (h : wfEntries cs) :
    ∀ n ∈ dirNames cs, wfName n := by
  induction cs with
  | nil => simp [dirNames]
  | cons e es ih =>
    rw [wfEntries_cons_iff] at h
    cases e with
    | file n => simpa [dirNames] using ih h.2
    | dir n cs2 =>
      rw [wfEntry_dir_iff] at h
      simp only [dirNames, List.mem_cons]
      rintro m (rfl | hm)
      · exact h.1.1
      · exact ih h.2 m hm

mutual
theorem walkItems_mem_inv (maxD : Int) (ign : List String) (p : List String)
    (cs : List FSEntry) :
    ∀ item ∈ walkItems maxD ign p cs,
      item.depth = item.relParts.length ∧
      p <+: item.relParts ∧
      (0 ≤ maxD → (item.depth : Int) ≤ maxD) ∧
      (∀ n ∈ item.relParts.drop p.length, n ∉ ign) ∧
      List.Pairwise (· ≤ ·) item.dirs ∧
      List.Pairwise (· ≤ ·) item.files ∧
      (wfEntries cs → ∀ f ∈ item.files, wfName f) := by
  intro item hm
  rw [walkItems] at hm
  by_cases hb : 0 ≤ maxD ∧ (pyDepth p : Int) > maxD
  · rw [if_pos hb] at hm
    rw [walkItemsChildren_nil maxD ign p false cs hb.1 (le_of_lt hb.2)] at hm
    exact absurd hm (List.not_mem_nil item)
  · rw [if_neg hb] at hm
    rcases List.mem_cons.mp hm with rfl | hm2
    · refine ⟨by simp [pyDepth_eq], List.prefix_refl p, ?_, ?_, sortStr_pairwise _,
        sortStr_pairwise _, ?_⟩
      · intro h0
        by_contra hgt
        exact hb ⟨h0, by simpa using lt_of_not_ge hgt⟩
      · simp
      · intro hwf f hf
        exact wfEntries_fileNames hwf f (mem_sortStr.mp hf)
    · exact walkItemsChildren_mem_inv maxD ign p cs item hm2
  termination_by (sizeOf cs, 1)

theorem walkItemsChildren_mem_inv (maxD : Int) (ign : List String) (p : List String)
    (cs : List FSEntry) :
    ∀ item ∈ walkItemsChildren maxD ign p true cs,
      item.depth = item.relParts.length ∧
      p <+: item.relParts ∧
      (0 ≤ maxD → (item.depth : Int) ≤ maxD) ∧
      (∀ n ∈ item.relParts.drop p.length, n ∉ ign) ∧
      List.Pairwise (· ≤ ·) item.dirs ∧
      List.Pairwise (· ≤ ·) item.files ∧
      (wfEntries cs → ∀ f ∈ item.files, wfName f) := by
  intro item hm
  match cs with
  | [] => rw [walkItemsChildren] at hm; exact absurd hm (List.not_mem_nil item)
  | .file f :: es =>
    rw [walkItemsChildren] at hm
    have h := walkItemsChildren_mem_inv maxD ign p es item hm
    exact ⟨h.1, h.2.1, h.2.2.1, h.2.2.2.1, h.2.2.2.2.1, h.2.2.2.2.2.1,
      fun hwf => h.2.2.2.2.2.2 ((wfEntries_cons_iff _ _).mp hwf).2⟩
  | .dir n cs2 :: es =>
    rw [walkItemsChildren] at hm
    by_cases hn : n ∈ ign
    · rw [if_pos ⟨rfl, hn⟩] at hm
      have h := walkItemsChildren_mem_inv maxD ign p es item hm
      exact ⟨h.1, h.2.1, h.2.2.1, h.2.2.2.1, h.2.2.2.2.1, h.2.2.2.2.2.1,
        fun hwf => h.2.2.2.2.2.2 ((wfEntries_cons_iff _ _).mp hwf).2⟩
    · rw [if_neg (fun hh => hn hh.2)] at hm
      have hnign : n ∉ ign := hn
      rcases List.mem_append.mp hm with hm1 | hm2
      · have h := walkItems_mem_inv maxD ign (p ++ [n]) cs2 item hm1
        obtain ⟨t, ht⟩ := h.2.1
        refine ⟨h.1, ?_, h.2.2.1, ?_, h.2.2.2.2.1, h.2.2.2.2.2.1, ?_⟩
        · exact ⟨[n] ++ t, by rw [← ht]; simp⟩
        · intro m hmem
          have hdrop : item.relParts.drop p.length = n :: t := by
            rw [← ht, List.append_assoc, List.drop_left]
            rfl
          have hdrop2 : item.relParts.drop (p ++ [n]).length = t := by
            rw [← ht, List.drop_left]
          rw [hdrop] at hmem
          rcases List.mem_cons.mp hmem with rfl | hmt
          · exact hnign
          · exact h.2.2.2.1 m (by rw [hdrop2]; exact hmt)
        · intro hwf
          exact h.2.2.2.2.2.2 ((wfEntry_dir_iff _ _).mp ((wfEntries_cons_iff _ _).mp hwf).1).2
      · have h := walkItemsChildren_mem_inv maxD ign p es item hm2
        exact ⟨h.1, h.2.1, h.2.2.1, h.2.2.2.1, h.2.2.2.2.1, h.2.2.2.2.2.1,
          fun hwf => h.2.2.2.2.2.2 ((wfEntries_cons_iff _ _).mp hwf).2⟩
  termination_by (sizeOf cs, 0)
end

/-! ## Every non-root item's directory line is emitted -/

theorem renderItem_depth_zero (rc : List FSEntry) (so : String) (item : WalkItem)
    (h : item.depth = 0) : renderItem rc so item = [] := by
  unfold renderItem
  rw [if_pos (by simp [h])]

theorem renderItem_head_mem (rc : List FSEntry) (so : String) (item : WalkItem)
    (h : 0 < item.depth) :
    (prefixFor rc item.relParts item.depth ++ item.relParts.getLastD "" ++ "/")
      ∈ renderItem rc so item := by
  unfold renderItem
  have hne : (item.depth == 0) = false := by simp [Nat.pos_iff_ne_zero.mp h]
  rw [hne]
  by_cases hso : (so == "both" || so == "files") = true <;> simp [hso]

theorem dirLine_mem_output (sd so : String) (contents : List FSEntry) (maxD : Int)
    (ign : List String) (item : WalkItem)
    (hm : item ∈ walkItems maxD ign [] contents) (h : 0 < item.depth) :
    (prefixFor contents item.relParts item.depth ++ item.relParts.getLastD "" ++ "/")
      ∈ outputLines (search_directory sd (some contents) maxD so ign noCancel) := by
  rw [outputLines_noCancel]
  exact List.mem_cons_of_mem _
    (List.mem_flatMap.mpr ⟨item, hm, renderItem_head_mem _ _ _ h⟩)

/-! ## Stripping the connector glyphs off a line -/

theorem stripGlyphs_seg {sg : List Char} (h : sg ∈ glyphSegs) (l : List Char) :
    stripGlyphs (sg ++ l) = stripGlyphs l := by
  simp only [glyphSegs, List.mem_cons, List.not_mem_nil, or_false] at h
  rcases h with rfl | rfl | rfl <;>
    · show stripGlyphs (_ :: _ :: _ :: _ :: l) = stripGlyphs l
      rw [stripGlyphs, if_pos (by decide)]

theorem stripGlyphs_keep {l : List Char}
    (h : l.headD ' ' ∉ (['│', '└', '├'] : List Char)) :
    stripGlyphs l = l := by
  match l with
  | [] => simp [stripGlyphs]
  | [a] => simp [stripGlyphs]
  | [a, b] => simp [stripGlyphs]
  | [a, b, c] => simp [stripGlyphs]
  | a :: b :: c :: d :: r =>
    rw [stripGlyphs, if_neg]
    intro hmem
    simp only [List.headD_cons] at h
    simp only [glyphSegs, List.mem_cons, List.not_mem_nil, or_false] at hmem
    rcases hmem with h1 | h1 | h1 <;> simp_all

/-- A string that is a concatenation of connector/indent segments. -/
def connectorRun (g : String) : Prop :=
  ∃ segs : List (List Char), (∀ sg ∈ segs, sg ∈ glyphSegs) ∧ g.data = segs.flatten

theorem connectorRun_stripGlyphs {g : String} (h : connectorRun g) (l : List Char) :
    stripGlyphs (g.data ++ l) = stripGlyphs l := by
  obtain ⟨segs, hs, hd⟩ := h
  rw [hd]
  clear hd
  induction segs with
  | nil => simp
  | cons sg segs ih =>
    rw [List.flatten_cons, List.append_assoc, stripGlyphs_seg (hs sg (by simp))]
    exact ih (fun s hs2 => hs s (List.mem_cons_of_mem _ hs2))

theorem connectorRun_empty : connectorRun "" :=
  ⟨[], by simp, by simp⟩

theorem connectorRun_seg {s : String} (h : s.data ∈ glyphSegs) : connectorRun s :=
  ⟨[s.data], by simpa using h, by simp⟩

theorem connectorRun_append {a b : String} (ha : connectorRun a) (hb : connectorRun b) :
    connectorRun (a ++ b) := by
  obtain ⟨sa, hsa, hda⟩ := ha
  obtain ⟨sb, hsb, hdb⟩ := hb
  refine ⟨sa ++ sb, ?_, ?_⟩
  · intro sg hsg
    rcases List.mem_append.mp hsg with h | h
    · exact hsa sg h
    · exact hsb sg h
  · rw [String.data_append, hda, hdb, List.flatten_append]

theorem connectorRun_join_replicate (k : Nat) :
    connectorRun (String.join (List.replicate k "│   ")) := by
  refine ⟨List.replicate k ("│   ".data), ?_, ?_⟩
  · intro sg hsg
    rw [List.eq_of_mem_replicate hsg]
    decide
  · rw [String.data_join, List.map_replicate]

theorem connectorRun_deadPrefix (k : Nat) :
    connectorRun (String.join (List.replicate k "│   ") ++ "└── ") :=
  connectorRun_append (connectorRun_join_replicate k) (connectorRun_seg (by decide))

theorem stripGlyphs_wfName {n : String} (hn : wfName n) (l : List Char) :
    stripGlyphs (n.data ++ l) = n.data ++ l := by
  apply stripGlyphs_keep
  obtain ⟨hne, _, hhead⟩ := hn
  match hd : n.data with
  | [] => exact absurd hd hne
  | c :: cs =>
    rw [hd] at hhead
    simpa using hhead

theorem stripLine_dirLine {g n : String} (hg : connectorRun g) (hn : wfName n) :
    stripLine (g ++ n ++ "/") = n := by
  apply String.ext
  show dropSlash (stripGlyphs (g ++ n ++ "/").data) = n.data
  have hd : (g ++ n ++ "/").data = g.data ++ (n.data ++ ['/']) := by
    simp [String.data_append]
  rw [hd, connectorRun_stripGlyphs hg, stripGlyphs_wfName hn, dropSlash,
    if_pos (List.getLast?_concat _), List.dropLast_concat]

theorem stripLine_fileLine {g n : String} (hg : connectorRun g) (hn : wfName n) :
    stripLine (g ++ n) = n := by
  apply String.ext
  show dropSlash (stripGlyphs (g ++ n).data) = n.data
  have hd : (g ++ n).data = g.data ++ n.data := String.data_append g n
  rw [hd, connectorRun_stripGlyphs hg]
  have h2 : stripGlyphs n.data = n.data := by
    simpa using stripGlyphs_wfName hn []
  rw [h2, dropSlash, if_neg]
  intro hlast
  exact hn.2.1 (List.mem_of_mem_getLast? hlast)

theorem stripLine_header {n : String} (hn : wfName n) :
    stripLine (n ++ "/") = n := by
  have h := stripLine_dirLine connectorRun_empty hn
  have he : ("" : String) ++ n = n := by
    apply String.ext
    simp [String.data_append]
  rwa [he] at h

/-! ## Name sets of the emitted lines (maxDepth = -1, mode "both") -/

theorem mem_specListing_split (ign : List String) (es : List FSEntry) (x : String) :
    x ∈ specListing ign es ↔ x ∈ fileNames es ∨ x ∈ specListingNoRootFiles ign es := by
  induction es with
  | nil => simp [specListing, specListingNoRootFiles, fileNames]
  | cons e es ih =>
    cases e with
    | file f =>
      simp only [specListing, specListingNoRootFiles, fileNames, List.mem_cons, ih]
      tauto
    | dir n cs =>
      by_cases hn : n ∈ ign
      · simp only [specListing, specListingNoRootFiles, fileNames, if_pos hn, ih]
      · simp only [specListing, specListingNoRootFiles, fileNames, if_neg hn,
          List.mem_append, List.mem_cons, ih]
        tauto

theorem map_stripLine_fileLines (pfx so : String) (hg : connectorRun pfx) (total : Nat)
    (fs : List String) (i : Nat) (hwf : ∀ f ∈ fs, wfName f) :
    ((fs.enumFrom i).map (fun q =>
        pfx ++ (if q.1 == total - 1 && so != "both" then "└── " else "├── ") ++ q.2)).map
          stripLine = fs := by
  induction fs generalizing i with
  | nil => simp
  | cons f fs ih =>
    simp only [List.enumFrom, List.map_cons]
    congr 1
    · show stripLine (pfx ++ (if i == total - 1 && so != "both" then "└── " else "├── ") ++ f) = f
      apply stripLine_fileLine
      · apply connectorRun_append hg
        by_cases hc : (i == total - 1 && so != "both") = true
        · rw [if_pos hc]; exact connectorRun_seg (by decide)
        · rw [if_neg hc]; exact connectorRun_seg (by decide)
      · exact hwf f (List.mem_cons_self f fs)
    · exact ih (i + 1) (fun g2 hgm => hwf g2 (List.mem_cons_of_mem _ hgm))

theorem map_stripLine_renderFileLines (pfx so : String) (hg : connectorRun pfx)
    (fs : List String) (hwf : ∀ f ∈ fs, wfName f) :
    (renderFileLines pfx so fs).map stripLine = fs := by
  unfold renderFileLines
  exact map_stripLine_fileLines pfx so hg fs.length fs 0 hwf

mutual
theorem strip_walkItems_mem (ign : List String) (rc : List FSEntry) (p : List String)
    (n : String) (cs : List FSEntry) (hn : wfName n) (hwf : wfEntries cs) :
    ∀ x, x ∈ ((walkItems (-1) ign (p ++ [n]) cs).flatMap (renderItem rc "both")).map stripLine
      ↔ (x = n ∨ x ∈ specListing ign cs) := by
  intro x
  rw [walkItems, if_neg (by norm_num)]
  rw [List.flatMap_cons, List.map_append, List.mem_append]
  have hren : (renderItem rc "both"
      ⟨p ++ [n], pyDepth (p ++ [n]),
        sortStr ((dirNames cs).filter (fun m => m ∉ ign)), sortStr (fileNames cs)⟩).map
        stripLine = n :: sortStr (fileNames cs) := by
    unfold renderItem
    simp only [pyDepth_concat, pyDepth_eq]
    rw [if_neg (by simp)]
    rw [if_pos (by decide)]
    simp only [List.map_cons]
    rw [prefixFor_dead_probe rc (p ++ [n]) (by simp)]
    have hlast : (p ++ [n]).getLastD "" = n := by
      simp [List.getLastD_eq_getLast?]
    rw [hlast, stripLine_dirLine (connectorRun_deadPrefix _) hn]
    rw [map_stripLine_renderFileLines _ _ (connectorRun_deadPrefix _) _
      (fun f hf => wfEntries_fileNames hwf f (mem_sortStr.mp hf))]
  rw [hren]
  rw [strip_walkItemsChildren_mem ign rc (p ++ [n]) cs hwf x]
  rw [mem_specListing_split]
  simp only [List.mem_cons, mem_sortStr]
  tauto
  termination_by (sizeOf cs, 1)

theorem strip_walkItemsChildren_mem (ign : List String) (rc : List FSEntry)
    (p : List String) (cs : List FSEntry) (hwf : wfEntries cs) :
    ∀ x, x ∈ ((walkItemsChildren (-1) ign p true cs).flatMap (renderItem rc "both")).map
        stripLine
      ↔ x ∈ specListingNoRootFiles ign cs := by
  intro x
  match cs with
  | [] => rw [walkItemsChildren]; simp [specListingNoRootFiles]
  | .file f :: es =>
    rw [walkItemsChildren]
    rw [wfEntries_cons_iff] at hwf
    rw [strip_walkItemsChildren_mem ign rc p es hwf.2 x]
    simp [specListingNoRootFiles]
  | .dir n cs2 :: es =>
    rw [walkItemsChildren]
    rw [wfEntries_cons_iff, wfEntry_dir_iff] at hwf
    by_cases hn : n ∈ ign
    · rw [if_pos ⟨rfl, hn⟩]
      rw [strip_walkItemsChildren_mem ign rc p es hwf.2 x]
      simp [specListingNoRootFiles, hn]
    · rw [if_neg (fun hh => hn hh.2)]
      rw [List.flatMap_append, List.map_append, List.mem_append]
      rw [strip_walkItems_mem ign rc p n cs2 hwf.1.1 hwf.1.2 x]
      rw [strip_walkItemsChildren_mem ign rc p es hwf.2 x]
      simp only [specListingNoRootFiles, if_neg hn, List.mem_append, List.mem_cons]
  termination_by (sizeOf cs, 0)
end

/-! ## Claim C1 -/

/-- C1 counterexample: for the spec's example tree (root `a` with empty
subdirectory `b` and file `x.txt`, mode Both, maxDepth -1, empty ignore set,
no cancellation) the output is NOT the claimed `a/`, `├── b/`, `├── x.txt`:
the code emits `a/`, `└── b/` — the root's file `x.txt` is never emitted and
the connector is `└── `. -/
theorem C1_counterexample :
    outputLines (search_directory "a"
        (some [FSEntry.dir "b" [], FSEntry.file "x.txt"]) (-1) "both" [] noCancel)
      ≠ ["a/", "├── b/", "├── x.txt"] := by
  simp [search_directory, walkDir, walkChildren, emitItems, emitFiles, outputLines, noCancel,
    pyDepth, dirNames, fileNames, sortStr, basename, prefixFor, isLastProbe, List.mergeSort]

/-- C1 (amended): with a valid root, maxDepth = -1, mode Both, a fixed ignore
set and no cancellation, the set of names in the emitted lines (connector
glyphs and the trailing slash stripped) equals the root's basename together
with the full recursive listing of the subtree minus ignored subtrees and
their descendants and minus the files located directly in the root directory;
on the example tree the output is exactly `a/`, `└── b/`. -/
theorem C1_names_match :
    (∀ (sd : String) (contents : List FSEntry) (ign : List String),
      wfEntries contents → wfName (basename sd) →
      ∀ x, x ∈ (outputLines
            (search_directory sd (some contents) (-1) "both" ign noCancel)).map stripLine
        ↔ (x = basename sd ∨ x ∈ specListingNoRootFiles ign contents)) ∧
    outputLines (search_directory "a"
        (some [FSEntry.dir "b" [], FSEntry.file "x.txt"]) (-1) "both" [] noCancel)
      = ["a/", "└── b/"] := by
  constructor
  · intro sd contents ign hwf hbn x
    rw [outputLines_noCancel]
    rw [walkItems, if_neg (by norm_num)]
    rw [List.flatMap_cons]
    have hroot : renderItem contents "both"
        ⟨[], pyDepth [], sortStr ((dirNames contents).filter (fun m => m ∉ ign)),
          sortStr (fileNames contents)⟩ = [] := by
      unfold renderItem
      rw [if_pos (by simp [pyDepth])]
    rw [hroot, List.nil_append, List.map_cons, List.mem_cons,
      stripLine_header hbn, strip_walkItemsChildren_mem ign contents [] contents hwf x]
  · simp [search_directory, walkDir, walkChildren, emitItems, emitFiles, outputLines, noCancel,
      pyDepth, dirNames, fileNames, sortStr, basename, prefixFor, isLastProbe, List.mergeSort]
    decide

/-- Witness for C1: the amended set equality instantiated on a concrete tree
(root `a` containing `b` which contains file `x.txt`). -/
theorem C1_names_match_witness :
    "x.txt" ∈ (outputLines (search_directory "a"
        (some [FSEntry.dir "b" [FSEntry.file "x.txt"]]) (-1) "both" [] noCancel)).map stripLine
      ↔ ("x.txt" = basename "a"
          ∨ "x.txt" ∈ specListingNoRootFiles [] [FSEntry.dir "b" [FSEntry.file "x.txt"]]) :=
  C1_names_match.1 "a" [FSEntry.dir "b" [FSEntry.file "x.txt"]] []
    (by simp only [wfEntries_cons_iff, wfEntry_dir_iff, wfEntry_file_iff, wfEntries_nil,
      and_true]; decide)
    (by decide) "x.txt"

/-! ## Claim C4 -/

/-- C4 (confirmed): if the root path does not name an existing directory, the
builder emits exactly one line `Error: Directory not found - <root>`,
terminates immediately with no other output and a final item count of 0, and
no exception escapes (the run returns normally, for every mode, depth,
ignore set and cancellation behaviour). -/
theorem C4_invalid_root (sd : String) (maxD : Int) (so : String)
    (ign : List String) (cancel : Nat → Bool) :
    search_directory sd none maxD so ign cancel
      = ⟨[QItem.line ("Error: Directory not found - " ++ sd)], 0⟩ := rfl

/-! ## Claim C2 -/

/-- C2 counterexample: in a root `a` with subdirectories `b` and `c`, the
directory `b` is not the last among the sorted subdirectories of its parent,
so the claim predicts the connector `├── ` for `b`; the code nevertheless
emits `└── b/`, and no line `├── b/` appears. -/
theorem C2_counterexample :
    "├── b/" ∉ outputLines (search_directory "a"
        (some [FSEntry.dir "b" [], FSEntry.dir "c" []]) (-1) "folders" [] noCancel)
    ∧ "└── b/" ∈ outputLines (search_directory "a"
        (some [FSEntry.dir "b" [], FSEntry.dir "c" []]) (-1) "folders" [] noCancel) := by
  refine ⟨?_, ?_⟩ <;>
  · simp [search_directory, walkDir, walkChildren, emitItems, emitFiles, outputLines, noCancel,
      pyDepth, dirNames, fileNames, sortStr, basename, prefixFor, isLastProbe, List.mergeSort]
    decide

/-- C2 (amended): for every directory emitted at depth d > 0, the line's
prefix consists of d-1 ancestor segments `│   ` followed by the connector
`└── ` — always, regardless of siblings: at the final index the probe's guard
`i < len(path_parts) - 1` is never satisfied (path_parts has exactly d
components), so the sibling re-listing never runs and `is_last` keeps its
default True; the line so prefixed is emitted. -/
theorem C2_always_last_connector (sd : String) (contents : List FSEntry) (maxD : Int)
    (so : String) (ign : List String) (item : WalkItem)
    (hm : item ∈ walkItems maxD ign [] contents) (hd : 0 < item.depth) :
    prefixFor contents item.relParts item.depth
        = String.join (List.replicate (item.depth - 1) "│   ") ++ "└── "
    ∧ (prefixFor contents item.relParts item.depth ++ item.relParts.getLastD "" ++ "/")
        ∈ outputLines (search_directory sd (some contents) maxD so ign noCancel) := by
  have hinv := walkItems_mem_inv maxD ign [] contents item hm
  have hlen : item.depth = item.relParts.length := hinv.1
  constructor
  · rw [hlen]
    apply prefixFor_dead_probe
    rw [hlen] at hd
    exact List.ne_nil_of_length_pos hd
  · exact dirLine_mem_output sd so contents maxD ign item hm hd

/-- Witness for C2: the connector of the non-last subdirectory `b` (sibling
`c` follows it in sorted order) is still `└── `. -/
theorem C2_witness :
    prefixFor [FSEntry.dir "b" [], FSEntry.dir "c" []] ["b"] 1
        = String.join (List.replicate 0 "│   ") ++ "└── "
    ∧ (prefixFor [FSEntry.dir "b" [], FSEntry.dir "c" []] ["b"] 1 ++ ["b"].getLastD "" ++ "/")
        ∈ outputLines (search_directory "a"
            (some [FSEntry.dir "b" [], FSEntry.dir "c" []]) (-1) "folders" [] noCancel) :=
  C2_always_last_connector "a" [FSEntry.dir "b" [], FSEntry.dir "c" []] (-1) "folders" []
    ⟨["b"], 1, [], []⟩
    (by simp [walkItems, walkItemsChildren, pyDepth, dirNames, fileNames, sortStr,
        List.mergeSort])
    (by decide)

/-! ## Claim C6 -/

mutual
theorem visitCount_unbounded (maxD : Int) (ign : List String) (h : maxD < 0)
    (depth : Nat) (cs : List FSEntry) :
    visitCount maxD ign depth cs = 1 + reachableDirCount ign cs := by
  rw [visitCount, if_neg (fun hb => absurd hb.1 (not_le.mpr h))]
  rw [visitCountChildren_unbounded maxD ign h depth cs]
  termination_by (sizeOf cs, 1)

theorem visitCountChildren_unbounded (maxD : Int) (ign : List String) (h : maxD < 0)
    (depth : Nat) (cs : List FSEntry) :
    visitCountChildren maxD ign depth true cs = reachableDirCount ign cs := by
  match cs with
  | [] => rw [visitCountChildren, reachableDirCount]
  | .file f :: es =>
    rw [visitCountChildren]
    rw [visitCountChildren_unbounded maxD ign h depth es]
    rw [reachableDirCount]
  | .dir n cs2 :: es =>
    rw [visitCountChildren]
    by_cases hn : n ∈ ign
    · rw [if_pos ⟨rfl, hn⟩, visitCountChildren_unbounded maxD ign h depth es]
      rw [reachableDirCount, if_pos hn]
    · rw [if_neg (fun hh => hn hh.2), visitCount_unbounded maxD ign h (depth + 1) cs2,
        visitCountChildren_unbounded maxD ign h depth es]
      rw [reachableDirCount, if_neg hn]
  termination_by (sizeOf cs, 0)
end

/-- C6 counterexample, refuting two parts of the claim at concrete inputs.
First, the spec's example (root `a` with subdirectory `b` and file `x.txt`,
ignore containing b) does not produce the claimed `a/`, `├── x.txt`: the
root's file is never emitted, so only `a/` appears.  Second, the walk does
not always stay out of ignored subdirectories: with maxDepth = 0, a root
containing `deep` which contains the ignored `x` which contains `y`, phase 1
performs 4 stop-event checks — one per directory it visits (root, `deep`,
`x`, `y`) — although only 2 directories (the root and `deep`) are reachable
without crossing an ignored name: the depth filter's `continue` skips the
ignore pruning, so the walk enters the ignored `x` and its child `y`. -/
theorem C6_counterexample :
    outputLines (search_directory "a"
        (some [FSEntry.dir "b" [], FSEntry.file "x.txt"]) (-1) "both" ["b"] noCancel)
      ≠ ["a/", "├── x.txt"]
    ∧ (walkDir 0 ["x"] noCancel []
        [FSEntry.dir "deep" [FSEntry.dir "x" [FSEntry.dir "y" []]]] 0).2.1 = 4
    ∧ 1 + reachableDirCount ["x"]
        [FSEntry.dir "deep" [FSEntry.dir "x" [FSEntry.dir "y" []]]] = 2 := by
  refine ⟨?_, ?_, ?_⟩
  · simp [search_directory, walkDir, walkChildren, emitItems, emitFiles, outputLines, noCancel,
      pyDepth, dirNames, fileNames, sortStr, basename, prefixFor, isLastProbe, List.mergeSort]
  · simp [walkDir, walkChildren, noCancel, pyDepth, dirNames, fileNames, sortStr,
      List.mergeSort]
  · simp [reachableDirCount]

/-- C6 (amended): no collected entry — hence no emitted line — lies at or
below a directory whose name is in the ignore set; with unbounded depth the
walk performs exactly one stop-event check per directory reachable without
crossing an ignored name (one for the root plus `reachableDirCount`), i.e. it
never enters an ignored subdirectory; on the example tree with ignore
containing b the output is exactly `a/` (the root's file is never emitted). -/
theorem C6_ignored_pruned :
    (∀ (maxD : Int) (ign : List String) (contents : List FSEntry) (item : WalkItem),
      item ∈ walkItems maxD ign [] contents → ∀ n ∈ item.relParts, n ∉ ign) ∧
    (∀ (maxD : Int) (ign : List String) (contents : List FSEntry), maxD < 0 →
      (walkDir maxD ign noCancel [] contents 0).2.1 = 1 + reachableDirCount ign contents) ∧
    outputLines (search_directory "a"
        (some [FSEntry.dir "b" [], FSEntry.file "x.txt"]) (-1) "both" ["b"] noCancel)
      = ["a/"] := by
  refine ⟨?_, ?_, ?_⟩
  · intro maxD ign contents item hm n hn
    have hinv := walkItems_mem_inv maxD ign [] contents item hm
    exact hinv.2.2.2.1 n (by simpa using hn)
  · intro maxD ign contents h
    rw [walkDir_noCancel]
    show 0 + visitCount maxD ign (pyDepth []) contents = _
    rw [Nat.zero_add, visitCount_unbounded maxD ign h]
  · simp [search_directory, walkDir, walkChildren, emitItems, emitFiles, outputLines, noCancel,
      pyDepth, dirNames, fileNames, sortStr, basename, prefixFor, isLastProbe, List.mergeSort]

/-- Witness for C6: concrete instances of the two quantified parts. -/
theorem C6_witness :
    (∀ n ∈ (⟨["b"], 1, [], []⟩ : WalkItem).relParts, n ∉ (["c"] : List String)) ∧
    (walkDir (-1) ["b"] noCancel [] [FSEntry.dir "b" [], FSEntry.dir "d" []] 0).2.1
      = 1 + reachableDirCount ["b"] [FSEntry.dir "b" [], FSEntry.dir "d" []] :=
  ⟨C6_ignored_pruned.1 (-1) ["c"] [FSEntry.dir "b" []] ⟨["b"], 1, [], []⟩
      (by simp [walkItems, walkItemsChildren, pyDepth, dirNames, fileNames, sortStr,
        List.mergeSort]),
    C6_ignored_pruned.2.1 (-1) ["b"] [FSEntry.dir "b" [], FSEntry.dir "d" []] (by norm_num)⟩

/-! ## Claim C5 -/

theorem walkItemsChildren_of_findDir (maxD : Int) (ign : List String) (p : List String)
    {cs : List FSEntry} {n : String} {cs2 : List FSEntry}
    (hfd : findDir cs n = some cs2) (hn : n ∉ ign) :
    ∀ item ∈ walkItems maxD ign (p ++ [n]) cs2,
      item ∈ walkItemsChildren maxD ign p true cs := by
  induction cs with
  | nil => rw [findDir] at hfd; exact absurd hfd (by simp)
  | cons e es ih =>
    intro item hm
    cases e with
    | file f =>
      rw [findDir] at hfd
      rw [walkItemsChildren]
      exact ih hfd item hm
    | dir m csm =>
      rw [findDir] at hfd
      rw [walkItemsChildren]
      by_cases hmn : m = n
      · subst hmn
        rw [if_pos rfl] at hfd
        injection hfd with hfd2
        subst hfd2
        rw [if_neg (fun hh => hn hh.2)]
        exact List.mem_append_left _ hm
      · rw [if_neg hmn] at hfd
        by_cases hmi : m ∈ ign
        · rw [if_pos ⟨rfl, hmi⟩]
          exact ih hfd item hm
        · rw [if_neg (fun hh => hmi hh.2)]
          exact List.mem_append_right _ (ih hfd item hm)

theorem walkItems_complete (maxD : Int) (hneg : maxD < 0) (ign : List String) :
    ∀ (parts p : List String) (cs : List FSEntry),
      validDirPath ign cs parts →
      ∃ item ∈ walkItems maxD ign p cs, item.relParts = p ++ parts := by
  intro parts
  induction parts with
  | nil =>
    intro p cs _
    refine ⟨⟨p, pyDepth p, sortStr ((dirNames cs).filter (fun m => m ∉ ign)),
      sortStr (fileNames cs)⟩, ?_, by simp⟩
    rw [walkItems, if_neg (fun hb => absurd hb.1 (not_le.mpr hneg))]
    exact List.mem_cons_self _ _
  | cons n rest ih =>
    intro p cs hv
    rw [validDirPath] at hv
    cases hfd : findDir cs n with
    | none => rw [hfd] at hv; exact absurd hv (by simp)
    | some cs2 =>
      rw [hfd] at hv
      obtain ⟨hn, hv2⟩ := hv
      obtain ⟨item, hmem, hrel⟩ := ih (p ++ [n]) cs2 hv2
      refine ⟨item, ?_, by rw [hrel]; simp⟩
      rw [walkItems, if_neg (fun hb => absurd hb.1 (not_le.mpr hneg))]
      exact List.mem_cons_of_mem _ (walkItemsChildren_of_findDir maxD ign p hfd hn item hmem)

/-- C5 (confirmed): for a non-negative maxDepth = k no collected entry — hence
no emitted directory line — has depth exceeding k; for maxDepth = 0 the queue
is exactly the root line and the end marker, regardless of mode and ignore
set; and for maxDepth < 0 no depth bound applies: every directory reachable
without crossing an ignored name, at any depth, has its line emitted. -/
theorem C5_depth_bound :
    (∀ (k : Nat) (ign : List String) (contents : List FSEntry) (item : WalkItem),
      item ∈ walkItems (k : Int) ign [] contents → item.depth ≤ k) ∧
    (∀ (sd so : String) (ign : List String) (contents : List FSEntry),
      (search_directory sd (some contents) 0 so ign noCancel).queue
        = [QItem.line (basename sd ++ "/"), QItem.endMarker]) ∧
    (∀ maxD : Int, maxD < 0 →
      ∀ (sd so : String) (ign : List String) (contents : List FSEntry) (parts : List String),
        validDirPath ign contents parts → parts ≠ [] →
        (prefixFor contents parts parts.length ++ parts.getLastD "" ++ "/")
          ∈ outputLines (search_directory sd (some contents) maxD so ign noCancel)) := by
  refine ⟨?_, ?_, ?_⟩
  · intro k ign contents item hm
    have hinv := walkItems_mem_inv (k : Int) ign [] contents item hm
    have := hinv.2.2.1 (by positivity)
    exact_mod_cast this
  · intro sd so ign contents
    rw [search_queue_noCancel]
    rw [walkItems, if_neg (fun hb => by simp [pyDepth] at hb)]
    rw [walkItemsChildren_nil 0 ign [] true contents le_rfl (by simp [pyDepth])]
    simp [renderItem_depth_zero, pyDepth]
  · intro maxD hneg sd so ign contents parts hv hne
    obtain ⟨item, hmem, hrel⟩ := walkItems_complete maxD hneg ign parts [] contents hv
    rw [List.nil_append] at hrel
    have hinv := walkItems_mem_inv maxD ign [] contents item hmem
    have hdep : item.depth = parts.length := by rw [hinv.1, hrel]
    have hpos : 0 < item.depth := by
      rw [hdep]
      exact List.length_pos_of_ne_nil hne
    have hout := dirLine_mem_output sd so contents maxD ign item hmem hpos
    rwa [hrel, hdep] at hout

/-- Witness for C5: the three parts instantiated on concrete trees. -/
theorem C5_witness :
    ((⟨[], 0, ["b"], []⟩ : WalkItem).depth ≤ 0) ∧
    ((search_directory "a" (some [FSEntry.dir "b" []]) 0 "both" [] noCancel).queue
      = [QItem.line (basename "a" ++ "/"), QItem.endMarker]) ∧
    (prefixFor [FSEntry.dir "b" []] ["b"] (["b"].length) ++ ["b"].getLastD "" ++ "/")
      ∈ outputLines (search_directory "a"
          (some [FSEntry.dir "b" []]) (-1) "both" [] noCancel) :=
  ⟨C5_depth_bound.1 0 [] [FSEntry.dir "b" []] ⟨[], 0, ["b"], []⟩
      (by simp [walkItems, walkItemsChildren, pyDepth, dirNames, fileNames, sortStr,
        List.mergeSort]),
    C5_depth_bound.2.1 "a" "both" [] [FSEntry.dir "b" []],
    C5_depth_bound.2.2 (-1) (by norm_num) "a" "both" [] [FSEntry.dir "b" []] ["b"]
      (by rw [validDirPath]; simp [findDir, validDirPath]) (by simp)⟩

/-! ## Claim C3 -/

theorem isDirLine_slash (s : String) : isDirLine (s ++ "/") = true := by
  unfold isDirLine
  have hd : (s ++ "/").data = s.data ++ ['/'] := by
    rw [String.data_append]
  rw [hd, List.getLast?_concat]
  rfl

theorem isDirLine_wfName_end (g f : String) (hf : wfName f) :
    isDirLine (g ++ f) = false := by
  unfold isDirLine
  rw [String.data_append, List.getLast?_append_of_ne_nil _ hf.1]
  have : f.data.getLast? ≠ some '/' := by
    intro hlast
    exact hf.2.1 (List.mem_of_mem_getLast? hlast)
  simpa using this

theorem fileLines_not_dirLine (pfx so : String) (fs : List String) (i total : Nat)
    (hwf : ∀ f ∈ fs, wfName f) :
    ∀ l ∈ (fs.enumFrom i).map (fun q =>
        pfx ++ (if q.1 == total - 1 && so != "both" then "└── " else "├── ") ++ q.2),
      isDirLine l = false := by
  induction fs generalizing i with
  | nil => simp
  | cons f fs ih =>
    simp only [List.enumFrom, List.map_cons, List.mem_cons]
    rintro l (rfl | hl)
    · exact isDirLine_wfName_end _ _ (hwf f (List.mem_cons_self f fs))
    · exact ih (i + 1) (fun g2 hg2 => hwf g2 (List.mem_cons_of_mem _ hg2)) l hl

theorem renderItem_folders_cases (rc : List FSEntry) (item : WalkItem) :
    renderItem rc "folders" item = [] ∨
    renderItem rc "folders" item
      = [prefixFor rc item.relParts item.depth ++ item.relParts.getLastD "" ++ "/"] := by
  unfold renderItem
  by_cases h0 : (item.depth == 0) = true
  · left
    rw [if_pos h0]
  · right
    rw [if_neg h0, if_neg (by decide)]

theorem renderItem_filter_dirLine (rc : List FSEntry) (item : WalkItem)
    (hwf : ∀ f ∈ item.files, wfName f) :
    (renderItem rc "files" item).filter isDirLine = renderItem rc "folders" item := by
  unfold renderItem
  by_cases h0 : (item.depth == 0) = true
  · rw [if_pos h0, if_pos h0]
    rfl
  · rw [if_neg h0, if_neg h0, if_pos (by decide), if_neg (by decide)]
    rw [List.filter_cons_of_pos (isDirLine_slash _)]
    rw [List.filter_eq_nil_iff.mpr
      (fun l hl => by
        simpa using fileLines_not_dirLine _ "files" item.files 0 item.files.length hwf l hl)]

theorem flatMap_filter_dirLine (rc : List FSEntry) (items : List WalkItem)
    (hwf : ∀ item ∈ items, ∀ f ∈ item.files, wfName f) :
    (items.flatMap (renderItem rc "files")).filter isDirLine
      = items.flatMap (renderItem rc "folders") := by
  induction items with
  | nil => simp
  | cons item rest ih =>
    rw [List.flatMap_cons, List.flatMap_cons, List.filter_append]
    rw [renderItem_filter_dirLine rc item (hwf item (List.mem_cons_self _ _))]
    rw [ih (fun it hit => hwf it (List.mem_cons_of_mem _ hit))]

/-- C3 counterexample: in FilesOnly mode the folder line `└── b/` is still
emitted (line 479 of app.py runs for every mode), contradicting the claim
that FilesOnly never emits a folder line. -/
theorem C3_counterexample :
    "└── b/" ∈ outputLines (search_directory "a"
        (some [FSEntry.dir "b" []]) (-1) "files" [] noCancel)
    ∧ isDirLine "└── b/" = true := by
  refine ⟨?_, by decide⟩
  simp [search_directory, walkDir, walkChildren, emitItems, emitFiles, outputLines, noCancel,
    pyDepth, dirNames, fileNames, sortStr, basename, prefixFor, isLastProbe, List.mergeSort]
  decide

/-- C3 (amended): FoldersOnly never emits a file line — every emitted line
ends in a slash; FilesOnly does NOT suppress folder lines: the folder lines
of a FilesOnly run are exactly the FoldersOnly output (the mode gates only
the file lines), with the files appearing after their directory's line using
the directory's computed prefix. -/
theorem C3_mode_lines :
    (∀ (sd : String) (maxD : Int) (ign : List String) (contents : List FSEntry),
      ∀ l ∈ outputLines (search_directory sd (some contents) maxD "folders" ign noCancel),
        isDirLine l = true) ∧
    (∀ (sd : String) (maxD : Int) (ign : List String) (contents : List FSEntry),
      wfEntries contents →
      (outputLines (search_directory sd (some contents) maxD "files" ign noCancel)).filter
          isDirLine
        = outputLines (search_directory sd (some contents) maxD "folders" ign noCancel)) := by
  constructor
  · intro sd maxD ign contents l hl
    rw [outputLines_noCancel] at hl
    rcases List.mem_cons.mp hl with rfl | hl2
    · exact isDirLine_slash _
    · obtain ⟨item, hitem, hline⟩ := List.mem_flatMap.mp hl2
      rcases renderItem_folders_cases contents item with hcase | hcase
      · rw [hcase] at hline
        exact absurd hline (List.not_mem_nil l)
      · rw [hcase] at hline
        rcases List.mem_singleton.mp hline with rfl
        exact isDirLine_slash _
  · intro sd maxD ign contents hwf
    rw [outputLines_noCancel, outputLines_noCancel]
    rw [List.filter_cons_of_pos (isDirLine_slash _)]
    rw [flatMap_filter_dirLine contents (walkItems maxD ign [] contents)
      (fun item hitem => (walkItems_mem_inv maxD ign [] contents item hitem).2.2.2.2.2.2 hwf)]

/-- Witness for C3: both parts instantiated on a concrete tree with a
directory and a file. -/
theorem C3_witness :
    (∀ l ∈ outputLines (search_directory "a"
        (some [FSEntry.dir "b" [FSEntry.file "x.txt"]]) (-1) "folders" [] noCancel),
      isDirLine l = true) ∧
    (outputLines (search_directory "a"
        (some [FSEntry.dir "b" [FSEntry.file "x.txt"]]) (-1) "files" [] noCancel)).filter
        isDirLine
      = outputLines (search_directory "a"
          (some [FSEntry.dir "b" [FSEntry.file "x.txt"]]) (-1) "folders" [] noCancel) :=
  ⟨C3_mode_lines.1 "a" (-1) [] [FSEntry.dir "b" [FSEntry.file "x.txt"]],
    C3_mode_lines.2 "a" (-1) [] [FSEntry.dir "b" [FSEntry.file "x.txt"]]
      (by simp only [wfEntries_cons_iff, wfEntry_dir_iff, wfEntry_file_iff, wfEntries_nil,
        and_true]; decide)⟩

/-! ## Claim C7 -/

theorem flatMap_chunk {α β : Type} (f : α → List β) {l : List α} {x : α} (hx : x ∈ l) :
    f x <:+: l.flatMap f := by
  obtain ⟨s, t, rfl⟩ := List.append_of_mem hx
  refine ⟨s.flatMap f, t.flatMap f, ?_⟩
  simp

/-- C7 counterexample: in FilesOnly mode a file directly in the root produces
no line at all (the root's walk entry is skipped), although the claim says
every visited directory's files are emitted. -/
theorem C7_counterexample :
    (¬ ∃ l ∈ outputLines (search_directory "a"
        (some [FSEntry.file "x.txt"]) (-1) "files" [] noCancel),
      l = "└── x.txt" ∨ l = "├── x.txt")
    ∧ outputLines (search_directory "a"
        (some [FSEntry.file "x.txt"]) (-1) "files" [] noCancel) = ["a/"] := by
  have h : outputLines (search_directory "a"
      (some [FSEntry.file "x.txt"]) (-1) "files" [] noCancel) = ["a/"] := by
    simp [search_directory, walkDir, walkChildren, emitItems, emitFiles, outputLines, noCancel,
      pyDepth, dirNames, fileNames, sortStr, basename, prefixFor, isLastProbe, List.mergeSort]
  refine ⟨?_, h⟩
  rw [h]
  decide

/-- C7 (amended): for every directory processed by the emission loop (every
collected entry of depth > 0), when the mode includes files, the stored file
names are lexicographically sorted and the emitted block — appearing
contiguously in the output — is the directory line followed by one line per
file, each the directory's prefix plus `├── `, except that the final file
receives `└── ` if and only if the mode is FilesOnly.  The root's own entry
is skipped, so files directly in the root are not covered. -/
theorem C7_file_lines (sd : String) (contents : List FSEntry) (maxD : Int)
    (so : String) (ign : List String) (item : WalkItem)
    (hso : so = "both" ∨ so = "files")
    (hm : item ∈ walkItems maxD ign [] contents) (hd : 0 < item.depth) :
    List.Pairwise (· ≤ ·) item.files
    ∧ renderItem contents so item
        = (prefixFor contents item.relParts item.depth ++ item.relParts.getLastD "" ++ "/")
          :: item.files.enum.map (fun q =>
              prefixFor contents item.relParts item.depth
                ++ (if q.1 = item.files.length - 1 ∧ so = "files" then "└── " else "├── ")
                ++ q.2)
    ∧ renderItem contents so item <:+:
        outputLines (search_directory sd (some contents) maxD so ign noCancel) := by
  have hinv := walkItems_mem_inv maxD ign [] contents item hm
  refine ⟨hinv.2.2.2.2.2.1, ?_, ?_⟩
  · unfold renderItem
    rw [if_neg (by simp [Nat.pos_iff_ne_zero.mp hd])]
    rw [if_pos (by rcases hso with rfl | rfl <;> decide)]
    unfold renderFileLines
    congr 1
    apply List.map_congr_left
    intro q _
    congr 1
    congr 1
    rcases hso with rfl | rfl
    · rw [if_neg (by simp), if_neg (by simp)]
    · by_cases hq : q.1 = item.files.length - 1
      · rw [if_pos (by simp [hq]), if_pos ⟨hq, rfl⟩]
      · rw [if_neg (by simp [hq]), if_neg (fun hh => hq hh.1)]
  · rw [outputLines_noCancel]
    exact (flatMap_chunk (renderItem contents so) hm).trans ⟨[basename sd ++ "/"], [], by simp⟩

/-- Witness for C7: instantiated on a root with one subdirectory holding one
file, FilesOnly mode. -/
theorem C7_witness :
    List.Pairwise (· ≤ ·) (⟨["b"], 1, [], ["x.txt"]⟩ : WalkItem).files
    ∧ renderItem [FSEntry.dir "b" [FSEntry.file "x.txt"]] "files"
          ⟨["b"], 1, [], ["x.txt"]⟩
        = (prefixFor [FSEntry.dir "b" [FSEntry.file "x.txt"]] ["b"] 1 ++ ["b"].getLastD "" ++ "/")
          :: (["x.txt"] : List String).enum.map (fun q =>
              prefixFor [FSEntry.dir "b" [FSEntry.file "x.txt"]] ["b"] 1
                ++ (if q.1 = (["x.txt"] : List String).length - 1 ∧ "files" = "files"
                    then "└── " else "├── ")
                ++ q.2)
    ∧ renderItem [FSEntry.dir "b" [FSEntry.file "x.txt"]] "files"
          ⟨["b"], 1, [], ["x.txt"]⟩ <:+:
        outputLines (search_directory "a"
          (some [FSEntry.dir "b" [FSEntry.file "x.txt"]]) (-1) "files" [] noCancel) :=
  C7_file_lines "a" [FSEntry.dir "b" [FSEntry.file "x.txt"]] (-1) "files" []
    ⟨["b"], 1, [], ["x.txt"]⟩ (Or.inr rfl)
    (by simp [walkItems, walkItemsChildren, pyDepth, dirNames, fileNames, sortStr,
      List.mergeSort])
    (by decide)

/-! ## Claim C8 -/

mutual
theorem walkItems_len (maxD : Int) (ign : List String) (p : List String)
    (cs : List FSEntry) :
    ∀ item ∈ walkItems maxD ign p cs, p.length ≤ item.relParts.length := by
  intro item hm
  rw [walkItems] at hm
  by_cases hb : 0 ≤ maxD ∧ (pyDepth p : Int) > maxD
  · rw [if_pos hb,
      walkItemsChildren_nil maxD ign p false cs hb.1 (le_of_lt hb.2)] at hm
    exact absurd hm (List.not_mem_nil item)
  · rw [if_neg hb] at hm
    rcases List.mem_cons.mp hm with rfl | hm2
    · exact le_refl _
    · exact le_of_lt (walkItemsChildren_len maxD ign p cs item hm2)
  termination_by (sizeOf cs, 1)

theorem walkItemsChildren_len (maxD : Int) (ign : List String) (p : List String)
    (cs : List FSEntry) :
    ∀ item ∈ walkItemsChildren maxD ign p true cs, p.length < item.relParts.length := by
  intro item hm
  match cs with
  | [] => rw [walkItemsChildren] at hm; exact absurd hm (List.not_mem_nil item)
  | .file f :: es =>
    rw [walkItemsChildren] at hm
    exact walkItemsChildren_len maxD ign p es item hm
  | .dir n cs2 :: es =>
    rw [walkItemsChildren] at hm
    by_cases hn : n ∈ ign
    · rw [if_pos ⟨rfl, hn⟩] at hm
      exact walkItemsChildren_len maxD ign p es item hm
    · rw [if_neg (fun hh => hn hh.2)] at hm
      rcases List.mem_append.mp hm with hm1 | hm2
      · have := walkItems_len maxD ign (p ++ [n]) cs2 item hm1
        simp only [List.length_append, List.length_singleton] at this
        omega
      · exact walkItemsChildren_len maxD ign p es item hm2
  termination_by (sizeOf cs, 0)
end

/-- A line that the claim classifies as a direct child of the root: it starts
with the `└── ` connector and ends in a slash. -/
def isRootChildDirLine (l : String) : Bool :=
  decide (l.data.take 4 = "└── ".data) && isDirLine l

theorem empty_append_str (s : String) : "" ++ s = s := by
  apply String.ext
  simp [String.data_append]

theorem prefixFor_depth_one (rc : List FSEntry) (n : String) :
    prefixFor rc [n] 1 = "└── " := by
  have h := prefixFor_dead_probe rc [n] (by simp)
  simp only [List.length_singleton] at h
  rw [h]
  show String.join [] ++ "└── " = _
  rw [show String.join ([] : List String) = "" from rfl, empty_append_str]

theorem take4_deep (k : Nat) (s : String) :
    ((String.join (List.replicate (k + 1) "│   ") ++ "└── ") ++ s).data.take 4
      = "│   ".data := by
  have hd : ((String.join (List.replicate (k + 1) "│   ") ++ "└── ") ++ s).data
      = "│   ".data ++ ((List.replicate k ("│   ".data)).flatten ++ ("└── ".data ++ s.data)) := by
    simp only [String.data_append, String.data_join, List.map_replicate]
    rw [List.replicate_succ, List.flatten_cons]
    simp [List.append_assoc]
  rw [hd, List.take_left' (by decide)]

theorem isRootChildDirLine_deep (k : Nat) (s : String) :
    isRootChildDirLine ((String.join (List.replicate (k + 1) "│   ") ++ "└── ") ++ s)
      = false := by
  unfold isRootChildDirLine
  rw [take4_deep]
  simp

theorem isRootChildDirLine_header {n : String} (hn : wfName n) :
    isRootChildDirLine (n ++ "/") = false := by
  unfold isRootChildDirLine
  have : ¬ (n ++ "/").data.take 4 = "└── ".data := by
    intro heq
    obtain ⟨hne, _, hhead⟩ := hn
    match hd : n.data with
    | [] => exact hne hd
    | c :: cs =>
      rw [String.data_append, hd] at heq
      simp only [List.cons_append, List.take_succ_cons] at heq
      rw [hd] at hhead
      simp only [List.headD_cons] at hhead
      have : c = '└' := by
        have := congrArg (fun l => l.headD ' ') heq
        simpa using this
      simp [this] at hhead
  rw [decide_eq_false this, Bool.false_and]

theorem renderItem_deep_no_rootChild (rc : List FSEntry) (so : String) (item : WalkItem)
    (hdep : item.depth = item.relParts.length) (h2 : 2 ≤ item.depth) :
    ∀ l ∈ renderItem rc so item, isRootChildDirLine l = false := by
  intro l hl
  obtain ⟨k, hk⟩ : ∃ k, item.depth - 1 = k + 1 := ⟨item.depth - 2, by omega⟩
  have hpfx : prefixFor rc item.relParts item.depth
      = String.join (List.replicate (k + 1) "│   ") ++ "└── " := by
    rw [hdep, prefixFor_dead_probe rc item.relParts
      (List.ne_nil_of_length_pos (by omega)), ← hdep, hk]
  unfold renderItem at hl
  rw [if_neg (by simp; omega)] at hl
  by_cases hso : (so == "both" || so == "files") = true
  · rw [if_pos hso] at hl
    rcases List.mem_cons.mp hl with rfl | hl2
    · rw [hpfx, String.append_assoc]
      exact isRootChildDirLine_deep k _
    · unfold renderFileLines at hl2
      obtain ⟨q, _, rfl⟩ := List.mem_map.mp hl2
      rw [hpfx, String.append_assoc]
      exact isRootChildDirLine_deep k _
  · rw [if_neg hso] at hl
    rcases List.mem_singleton.mp hl with rfl
    rw [hpfx, String.append_assoc]
    exact isRootChildDirLine_deep k _

theorem isRootChildDirLine_child (nm : String) :
    isRootChildDirLine ("└── " ++ nm ++ "/") = true := by
  unfold isRootChildDirLine
  have h1 : ("└── " ++ nm ++ "/").data = "└── ".data ++ (nm.data ++ ['/']) := by
    simp [String.data_append]
  have h2 : ("└── " ++ nm ++ "/").data.take 4 = "└── ".data := by
    rw [h1, List.take_left' (by decide)]
  rw [h2]
  simp [isDirLine_slash]

theorem renderItem_depth1_filter (rc : List FSEntry) (so : String) (item : WalkItem)
    (hdep : item.depth = item.relParts.length) (h1 : item.depth = 1)
    (hwf : ∀ f ∈ item.files, wfName f) :
    (renderItem rc so item).filter isRootChildDirLine
      = ["└── " ++ item.relParts.getLastD "" ++ "/"] := by
  obtain ⟨n, hn⟩ : ∃ n, item.relParts = [n] := by
    match hp : item.relParts with
    | [] => rw [hdep, hp] at h1; simp at h1
    | [n] => exact ⟨n, rfl⟩
    | n :: m :: r => rw [hdep, hp] at h1; simp at h1
  have hpfx : prefixFor rc item.relParts item.depth = "└── " := by
    rw [hn, h1, prefixFor_depth_one]
  have hfail : ∀ l ∈ renderFileLines "└── " so item.files, isRootChildDirLine l = false := by
    intro l hl
    unfold renderFileLines at hl
    have hdl := fileLines_not_dirLine "└── " so item.files 0 item.files.length hwf l (by simpa using hl)
    unfold isRootChildDirLine
    rw [hdl]
    simp
  unfold renderItem
  rw [if_neg (by simp [h1])]
  by_cases hso : (so == "both" || so == "files") = true
  · rw [if_pos hso, hpfx]
    rw [List.filter_cons_of_pos (isRootChildDirLine_child _)]
    rw [List.filter_eq_nil_iff.mpr (fun a ha => by simp [hfail a ha])]
  · rw [if_neg hso, hpfx]
    rw [List.filter_cons_of_pos (isRootChildDirLine_child _)]
    rfl

theorem child_filter (ign : List String) (rc : List FSEntry) (so : String)
    (n : String) (cs2 : List FSEntry) (hwfc : wfEntries cs2) :
    ((walkItems (-1) ign [n] cs2).flatMap (renderItem rc so)).filter isRootChildDirLine
      = ["└── " ++ n ++ "/"] := by
  have hdeep : ∀ l ∈ (walkItemsChildren (-1) ign [n] true cs2).flatMap (renderItem rc so),
      isRootChildDirLine l = false := by
    intro l hl
    obtain ⟨item, hitem, hlmem⟩ := List.mem_flatMap.mp hl
    have hinv := walkItemsChildren_mem_inv (-1) ign [n] cs2 item hitem
    have hlen := walkItemsChildren_len (-1) ign [n] cs2 item hitem
    exact renderItem_deep_no_rootChild rc so item hinv.1
      (by rw [hinv.1]; simpa using hlen) l hlmem
  have hnil : ((walkItemsChildren (-1) ign [n] true cs2).flatMap (renderItem rc so)).filter
      isRootChildDirLine = [] :=
    List.filter_eq_nil_iff.mpr (fun a ha => by simp [hdeep a ha])
  rw [walkItems, if_neg (by norm_num), List.flatMap_cons, List.filter_append]
  rw [renderItem_depth1_filter rc so _ (by simp [pyDepth]) (by simp [pyDepth])
    (fun f hf => wfEntries_fileNames hwfc f (mem_sortStr.mp hf))]
  rw [hnil]
  simp

theorem rootChildren_filter (ign : List String) (rc : List FSEntry) (so : String) :
    ∀ cs : List FSEntry, wfEntries cs →
      ((walkItemsChildren (-1) ign [] true cs).flatMap (renderItem rc so)).filter
          isRootChildDirLine
        = ((dirNames cs).filter (fun n => n ∉ ign)).map (fun n => "└── " ++ n ++ "/") := by
  intro cs hwf
  induction cs with
  | nil => rw [walkItemsChildren]; simp [dirNames]
  | cons e es ih =>
    rw [wfEntries_cons_iff] at hwf
    cases e with
    | file f =>
      rw [walkItemsChildren]
      rw [ih hwf.2]
      rw [show dirNames (FSEntry.file f :: es) = dirNames es from by rw [dirNames]]
    | dir n cs2 =>
      rw [wfEntry_dir_iff] at hwf
      rw [walkItemsChildren]
      by_cases hn : n ∈ ign
      · rw [if_pos ⟨rfl, hn⟩, ih hwf.2]
        rw [show dirNames (FSEntry.dir n cs2 :: es) = n :: dirNames es from by rw [dirNames]]
        rw [List.filter_cons_of_neg (by simpa using hn)]
      · rw [if_neg (fun hh => hn hh.2)]
        rw [List.flatMap_append, List.filter_append]
        have hchild := child_filter ign rc so n cs2 hwf.1.2
        rw [show ([] : List String) ++ [n] = [n] from rfl]
        rw [hchild, ih hwf.2]
        rw [show dirNames (FSEntry.dir n cs2 :: es) = n :: dirNames es from by rw [dirNames]]
        rw [List.filter_cons_of_pos (by simpa using hn)]
        rfl

/-- C8 counterexample: with listing order `c` before `b`, the emitted
subdirectory lines of the root appear as `c` then `b` — not in lexicographic
order (the stored sorted list is never used for emission order). -/
theorem C8_counterexample :
    outputLines (search_directory "a"
        (some [FSEntry.dir "c" [], FSEntry.dir "b" []]) (-1) "folders" [] noCancel)
      = ["a/", "└── c/", "└── b/"]
    ∧ ¬ List.Pairwise (· ≤ ·)
        (((outputLines (search_directory "a"
            (some [FSEntry.dir "c" [], FSEntry.dir "b" []]) (-1) "folders" [] noCancel)).drop
              1).map stripLine) := by
  have h : outputLines (search_directory "a"
      (some [FSEntry.dir "c" [], FSEntry.dir "b" []]) (-1) "folders" [] noCancel)
      = ["a/", "└── c/", "└── b/"] := by
    simp [search_directory, walkDir, walkChildren, emitItems, emitFiles, outputLines, noCancel,
      pyDepth, dirNames, fileNames, sortStr, basename, prefixFor, isLastProbe, List.mergeSort]
    decide
  refine ⟨h, ?_⟩
  rw [h]
  rw [show (["a/", "└── c/", "└── b/"] : List String).drop 1 = ["└── c/", "└── b/"] from rfl]
  rw [show (["└── c/", "└── b/"] : List String).map stripLine = ["c", "b"] from by decide]
  intro hp
  have h1 : ("c" : String) ≤ "b" := (List.pairwise_cons.mp hp).1 "b" (by simp)
  rw [String.le_iff_toList_le] at h1
  exact absurd h1 (by decide)

/-- C8 (amended): within each collected entry the stored file names and
subdirectory names are each lexicographically sorted (and the file lines are
emitted in that order), but the subdirectory lines within a parent appear in
the order the filesystem listing provides, not in sorted order: the root's
child directory lines are exactly the ignore-filtered listing order. -/
theorem C8_ordering :
    (∀ (maxD : Int) (ign : List String) (contents : List FSEntry) (item : WalkItem),
      item ∈ walkItems maxD ign [] contents →
      List.Pairwise (· ≤ ·) item.files ∧ List.Pairwise (· ≤ ·) item.dirs) ∧
    (∀ (sd so : String) (ign : List String) (contents : List FSEntry),
      wfEntries contents → wfName (basename sd) →
      (outputLines (search_directory sd (some contents) (-1) so ign noCancel)).filter
          isRootChildDirLine
        = ((dirNames contents).filter (fun n => n ∉ ign)).map (fun n => "└── " ++ n ++ "/")) := by
  constructor
  · intro maxD ign contents item hm
    have hinv := walkItems_mem_inv maxD ign [] contents item hm
    exact ⟨hinv.2.2.2.2.2.1, hinv.2.2.2.2.1⟩
  · intro sd so ign contents hwf hbn
    rw [outputLines_noCancel]
    rw [List.filter_cons_of_neg (by simpa using isRootChildDirLine_header hbn)]
    rw [walkItems, if_neg (by norm_num), List.flatMap_cons,
      renderItem_depth_zero _ _ _ (by simp [pyDepth]), List.nil_append]
    exact rootChildren_filter ign contents so contents hwf

/-- Witness for C8: both parts instantiated on a tree whose listing order is
not sorted. -/
theorem C8_witness :
    (List.Pairwise (· ≤ ·) (⟨["c"], 1, [], []⟩ : WalkItem).files
      ∧ List.Pairwise (· ≤ ·) (⟨["c"], 1, [], []⟩ : WalkItem).dirs) ∧
    (outputLines (search_directory "a"
        (some [FSEntry.dir "c" [], FSEntry.dir "b" []]) (-1) "folders" [] noCancel)).filter
        isRootChildDirLine
      = ((dirNames [FSEntry.dir "c" [], FSEntry.dir "b" []]).filter
          (fun n => n ∉ ([] : List String))).map (fun n => "└── " ++ n ++ "/") :=
  ⟨C8_ordering.1 (-1) [] [FSEntry.dir "c" [], FSEntry.dir "b" []] ⟨["c"], 1, [], []⟩
      (by simp [walkItems, walkItemsChildren, pyDepth, dirNames, fileNames, sortStr,
        List.mergeSort]),
    C8_ordering.2 "a" "folders" [] [FSEntry.dir "c" [], FSEntry.dir "b" []]
      (by simp only [wfEntries_cons_iff, wfEntry_dir_iff, wfEntries_nil, and_true]; decide)
      (by decide)⟩

/-! ## Claim C10 -/

theorem dirNames_filter_isDir (cs : List FSEntry) :
    dirNames (cs.filter FSEntry.isDir) = dirNames cs := by
  induction cs with
  | nil => rfl
  | cons e es ih =>
    cases e with
    | file f => simpa [List.filter, FSEntry.isDir, dirNames] using ih
    | dir n cs2 => simpa [List.filter, FSEntry.isDir, dirNames] using ih

theorem fileNames_filter_isDir (cs : List FSEntry) :
    fileNames (cs.filter FSEntry.isDir) = [] := by
  induction cs with
  | nil => rfl
  | cons e es ih =>
    cases e with
    | file f => simpa [List.filter, FSEntry.isDir, fileNames] using ih
    | dir n cs2 => simpa [List.filter, FSEntry.isDir, fileNames] using ih

theorem findDir_filter_isDir (cs : List FSEntry) (n : String) :
    findDir (cs.filter FSEntry.isDir) n = findDir cs n := by
  induction cs with
  | nil => rfl
  | cons e es ih =>
    cases e with
    | file f => simpa [List.filter, FSEntry.isDir, findDir] using ih
    | dir m cs2 =>
      by_cases hm : m = n
      · simp [List.filter, FSEntry.isDir, findDir, hm]
      · simpa [List.filter, FSEntry.isDir, findDir, hm] using ih

theorem resolvePath_dirNames_eq (cs : List FSEntry) (parts : List String) :
    (resolvePath (cs.filter FSEntry.isDir) parts).map dirNames
      = (resolvePath cs parts).map dirNames := by
  cases parts with
  | nil => simp [resolvePath, dirNames_filter_isDir]
  | cons n rest =>
    rw [resolvePath, resolvePath, findDir_filter_isDir]

theorem isLastProbe_filter_isDir (contents : List FSEntry) (parts : List String) (i : Nat) :
    isLastProbe (contents.filter FSEntry.isDir) parts i = isLastProbe contents parts i := by
  unfold isLastProbe
  by_cases hi : i < parts.length - 1
  · rw [if_pos hi, if_pos hi]
    have h := resolvePath_dirNames_eq contents (parts.take (i + 1))
    cases h1 : resolvePath (contents.filter FSEntry.isDir) (parts.take (i + 1)) with
    | none =>
      cases h2 : resolvePath contents (parts.take (i + 1)) with
      | none => rfl
      | some cs => rw [h1, h2] at h; simp at h
    | some csf =>
      cases h2 : resolvePath contents (parts.take (i + 1)) with
      | none => rw [h1, h2] at h; simp at h
      | some cs =>
        rw [h1, h2] at h
        simp at h
        simp only [h]
  · rw [if_neg hi, if_neg hi]

theorem prefixFor_filter_isDir (contents : List FSEntry) (parts : List String) (d : Nat) :
    prefixFor (contents.filter FSEntry.isDir) parts d = prefixFor contents parts d := by
  unfold prefixFor
  congr 1
  apply List.map_congr_left
  intro i _
  rw [isLastProbe_filter_isDir]

theorem emitItems_filter_isDir (contents : List FSEntry) (so : String) (cancel : Nat → Bool) :
    ∀ (items : List WalkItem) (c cnt : Nat),
      emitItems (contents.filter FSEntry.isDir) so cancel items c cnt
        = emitItems contents so cancel items c cnt := by
  intro items
  induction items with
  | nil => intro c cnt; rfl
  | cons item rest ih =>
    intro c cnt
    rw [emitItems, emitItems]
    by_cases hc : cancel c = true
    · rw [if_pos hc, if_pos hc]
    · rw [if_neg hc, if_neg hc]
      by_cases h0 : (item.depth == 0) = true
      · rw [if_pos h0, if_pos h0]
        exact ih (c + 1) cnt
      · rw [if_neg h0, if_neg h0]
        simp only [prefixFor_filter_isDir, ih]

theorem walkChildren_filter_isDir (maxD : Int) (ign : List String) (cancel : Nat → Bool)
    (p : List String) (b : Bool) :
    ∀ (cs : List FSEntry) (c : Nat),
      walkChildren maxD ign cancel p b (cs.filter FSEntry.isDir) c
        = walkChildren maxD ign cancel p b cs c := by
  intro cs
  induction cs with
  | nil => intro c; rfl
  | cons e es ih =>
    intro c
    cases e with
    | file f =>
      rw [show (FSEntry.file f :: es).filter FSEntry.isDir = es.filter FSEntry.isDir from by
        simp [List.filter, FSEntry.isDir]]
      rw [ih c, walkChildren]
    | dir n cs2 =>
      rw [show (FSEntry.dir n cs2 :: es).filter FSEntry.isDir
          = FSEntry.dir n cs2 :: es.filter FSEntry.isDir from by
        simp [List.filter, FSEntry.isDir]]
      rw [walkChildren, walkChildren]
      by_cases hn : b ∧ n ∈ ign
      · rw [if_pos hn, if_pos hn]
        exact ih c
      · rw [if_neg hn, if_neg hn]
        simp only [ih]

theorem emitItems_skip_zero (rc : List FSEntry) (so : String) (cancel : Nat → Bool)
    (it1 it2 : WalkItem) (h1 : it1.depth = 0) (h2 : it2.depth = 0)
    (rest : List WalkItem) (c cnt : Nat) :
    emitItems rc so cancel (it1 :: rest) c cnt = emitItems rc so cancel (it2 :: rest) c cnt := by
  rw [emitItems, emitItems]
  by_cases hc : cancel c = true
  · rw [if_pos hc, if_pos hc]
  · rw [if_neg hc, if_neg hc, if_pos (by simp [h1]), if_pos (by simp [h2])]

/-- C10 (confirmed): files located directly in the root directory never
produce an output line, for every mode, depth limit, ignore set and
cancellation behaviour: deleting all file entries from the root's listing
leaves the entire run (queue contents and item count) unchanged, and the
first queue entry is always the root header line. -/
theorem C10_root_files_invisible (sd : String) (contents : List FSEntry) (maxD : Int)
    (so : String) (ign : List String) (cancel : Nat → Bool) :
    search_directory sd (some contents) maxD so ign cancel
      = search_directory sd (some (contents.filter FSEntry.isDir)) maxD so ign cancel
    ∧ (search_directory sd (some contents) maxD so ign cancel).queue.head?
      = some (QItem.line (basename sd ++ "/")) := by
  constructor
  · show (⟨_, _⟩ : SearchResult) = (⟨_, _⟩ : SearchResult)
    have hbound : ¬(0 ≤ maxD ∧ ((pyDepth [] : Int) > maxD)) ∨
        (0 ≤ maxD ∧ ((pyDepth [] : Int) > maxD)) := (em _).symm
    by_cases hc : cancel 0 = true
    · have hw1 : walkDir maxD ign cancel [] contents 0 = ([], 1, true) := by
        rw [walkDir, if_pos hc]
      have hw2 : walkDir maxD ign cancel [] (contents.filter FSEntry.isDir) 0
          = ([], 1, true) := by
        rw [walkDir, if_pos hc]
      rw [hw1, hw2, emitItems_filter_isDir]
    · have hroot : ¬(0 ≤ maxD ∧ ((pyDepth [] : Int) > maxD)) := by
        rintro ⟨hm, hgt⟩
        simp [pyDepth] at hgt
        omega
      have hw1 : walkDir maxD ign cancel [] contents 0
          = (⟨[], pyDepth [], sortStr ((dirNames contents).filter (fun n => n ∉ ign)),
              sortStr (fileNames contents)⟩
                :: (walkChildren maxD ign cancel [] true contents 1).1,
              (walkChildren maxD ign cancel [] true contents 1).2) := by
        rw [walkDir, if_neg hc, if_neg hroot]
      have hw2 : walkDir maxD ign cancel [] (contents.filter FSEntry.isDir) 0
          = (⟨[], pyDepth [], sortStr ((dirNames contents).filter (fun n => n ∉ ign)),
              sortStr []⟩
                :: (walkChildren maxD ign cancel [] true contents 1).1,
              (walkChildren maxD ign cancel [] true contents 1).2) := by
        rw [walkDir, if_neg hc, if_neg hroot, dirNames_filter_isDir, fileNames_filter_isDir,
          walkChildren_filter_isDir]
      rw [hw1, hw2, emitItems_filter_isDir]
      rw [emitItems_skip_zero contents so cancel
        ⟨[], pyDepth [], sortStr ((dirNames contents).filter (fun n => n ∉ ign)), sortStr []⟩
        ⟨[], pyDepth [], sortStr ((dirNames contents).filter (fun n => n ∉ ign)),
          sortStr (fileNames contents)⟩ (by simp [pyDepth]) (by simp [pyDepth])]
  · rfl

/-! ## Claim C9 -/

mutual
theorem walkDir_cancel_pfx (maxD : Int) (ign : List String) (cancel : Nat → Bool)
    (p : List String) (cs : List FSEntry) (c : Nat) :
    (walkDir maxD ign cancel p cs c).1 <+: walkItems maxD ign p cs
    ∧ ((walkDir maxD ign cancel p cs c).2.2 = false →
        (walkDir maxD ign cancel p cs c).1 = walkItems maxD ign p cs) := by
  rw [walkDir, walkItems]
  by_cases hc : cancel c = true
  · rw [if_pos hc]
    refine ⟨List.nil_prefix, fun hst => ?_⟩
    simp at hst
  · rw [if_neg hc]
    by_cases hb : 0 ≤ maxD ∧ ((pyDepth p : Int) > maxD)
    · rw [if_pos hb, if_pos hb]
      exact walkChildren_cancel_pfx maxD ign cancel p false cs (c + 1)
    · rw [if_neg hb, if_neg hb]
      dsimp only
      have IH := walkChildren_cancel_pfx maxD ign cancel p true cs (c + 1)
      constructor
      · obtain ⟨t, ht⟩ := IH.1
        exact ⟨t, by simp [ht]⟩
      · intro hst
        rw [IH.2 hst]
  termination_by (sizeOf cs, 1)

theorem walkChildren_cancel_pfx (maxD : Int) (ign : List String) (cancel : Nat → Bool)
    (p : List String) (b : Bool) (cs : List FSEntry) (c : Nat) :
    (walkChildren maxD ign cancel p b cs c).1 <+: walkItemsChildren maxD ign p b cs
    ∧ ((walkChildren maxD ign cancel p b cs c).2.2 = false →
        (walkChildren maxD ign cancel p b cs c).1 = walkItemsChildren maxD ign p b cs) := by
  match cs with
  | [] =>
    rw [walkChildren, walkItemsChildren]
    exact ⟨List.nil_prefix, fun _ => rfl⟩
  | .file f :: es =>
    rw [walkChildren, walkItemsChildren]
    exact walkChildren_cancel_pfx maxD ign cancel p b es c
  | .dir n cs2 :: es =>
    rw [walkChildren, walkItemsChildren]
    by_cases hn : b ∧ n ∈ ign
    · rw [if_pos hn, if_pos hn]
      exact walkChildren_cancel_pfx maxD ign cancel p b es c
    · rw [if_neg hn, if_neg hn]
      dsimp only
      have IHd := walkDir_cancel_pfx maxD ign cancel (p ++ [n]) cs2 c
      by_cases hst : (walkDir maxD ign cancel (p ++ [n]) cs2 c).2.2 = true
      · rw [if_pos hst]
        dsimp only
        constructor
        · exact IHd.1.trans (List.prefix_append _ _)
        · intro hfalse
          simp at hfalse
      · rw [if_neg hst]
        dsimp only
        have heq := IHd.2 (Bool.not_eq_true _ ▸ (by simpa using hst))
        have IHr := walkChildren_cancel_pfx maxD ign cancel p b es
          (walkDir maxD ign cancel (p ++ [n]) cs2 c).2.1
        constructor
        · rw [heq]
          obtain ⟨t, ht⟩ := IHr.1
          exact ⟨t, by rw [List.append_assoc, ht]⟩
        · intro hst2
          rw [heq, IHr.2 hst2]
  termination_by (sizeOf cs, 0)
end

theorem emitItems_cancelled (rc : List FSEntry) (so : String) (cancel : Nat → Bool)
    (hmono : ∀ i j, i ≤ j → cancel i = true → cancel j = true)
    (items : List WalkItem) (c cnt : Nat) (hc : cancel c = true) :
    (emitItems rc so cancel items c cnt).1 = []
    ∧ cancel (emitItems rc so cancel items c cnt).2.1 = true := by
  cases items with
  | nil => exact ⟨rfl, hc⟩
  | cons item rest =>
    rw [emitItems, if_pos hc]
    exact ⟨rfl, hmono c (c + 1) (Nat.le_succ c) hc⟩

theorem emitFiles_cancel_pfx (pfx so : String) (cancel : Nat → Bool)
    (hmono : ∀ i j, i ≤ j → cancel i = true → cancel j = true) (total : Nat) :
    ∀ (fs : List String) (i c cnt : Nat),
      (emitFiles pfx so cancel total fs i c cnt).1
          <+: (fs.enumFrom i).map (fun q =>
            pfx ++ (if q.1 == total - 1 && so != "both" then "└── " else "├── ") ++ q.2)
      ∧ (cancel (emitFiles pfx so cancel total fs i c cnt).2.1 = true
          ∨ (emitFiles pfx so cancel total fs i c cnt).1
            = (fs.enumFrom i).map (fun q =>
              pfx ++ (if q.1 == total - 1 && so != "both" then "└── " else "├── ") ++ q.2)) := by
  intro fs
  induction fs with
  | nil =>
    intro i c cnt
    exact ⟨List.nil_prefix, Or.inr rfl⟩
  | cons f fs ih =>
    intro i c cnt
    rw [emitFiles]
    by_cases hc : cancel c = true
    · rw [if_pos hc]
      exact ⟨List.nil_prefix, Or.inl (hmono c (c + 1) (Nat.le_succ c) hc)⟩
    · rw [if_neg hc]
      dsimp only [List.enumFrom, List.map_cons]
      have IH := ih (i + 1) (c + 1) (cnt + 1)
      constructor
      · obtain ⟨t, ht⟩ := IH.1
        exact ⟨t, by simp [ht]⟩
      · rcases IH.2 with h | h
        · exact Or.inl h
        · exact Or.inr (by rw [h])

theorem emitItems_cancel_pfx (rc : List FSEntry) (so : String) (cancel : Nat → Bool)
    (hmono : ∀ i j, i ≤ j → cancel i = true → cancel j = true) :
    ∀ (items : List WalkItem) (c cnt : Nat),
      (emitItems rc so cancel items c cnt).1 <+: items.flatMap (renderItem rc so)
      ∧ (cancel (emitItems rc so cancel items c cnt).2.1 = true
          ∨ (emitItems rc so cancel items c cnt).1 = items.flatMap (renderItem rc so)) := by
  intro items
  induction items with
  | nil =>
    intro c cnt
    exact ⟨List.nil_prefix, Or.inr rfl⟩
  | cons item rest ih =>
    intro c cnt
    rw [emitItems, List.flatMap_cons]
    by_cases hc : cancel c = true
    · rw [if_pos hc]
      exact ⟨List.nil_prefix, Or.inl (hmono c (c + 1) (Nat.le_succ c) hc)⟩
    · rw [if_neg hc]
      by_cases h0 : (item.depth == 0) = true
      · rw [if_pos h0]
        rw [renderItem_depth_zero rc so item (by simpa using h0), List.nil_append]
        exact ih (c + 1) cnt
      · rw [if_neg h0]
        have hrend : renderItem rc so item
            = if (so == "both" || so == "files") = true then
                (prefixFor rc item.relParts item.depth ++ item.relParts.getLastD "" ++ "/")
                  :: renderFileLines (prefixFor rc item.relParts item.depth) so item.files
              else
                [prefixFor rc item.relParts item.depth ++ item.relParts.getLastD "" ++ "/"] := by
          unfold renderItem
          rw [if_neg h0]
        by_cases hso : (so == "both" || so == "files") = true
        · rw [if_pos hso]
          rw [hrend, if_pos hso]
          dsimp only
          unfold renderFileLines
          rw [show item.files.enum = List.enumFrom 0 item.files from rfl]
          have IHf := emitFiles_cancel_pfx (prefixFor rc item.relParts item.depth) so cancel
            hmono item.files.length item.files 0 (c + 1) cnt
          rcases IHf.2 with hff | hff
          · -- the file loop was broken; the next outer check fires too
            have hrr := emitItems_cancelled rc so cancel hmono rest
              (emitFiles (prefixFor rc item.relParts item.depth) so cancel item.files.length
                item.files 0 (c + 1) cnt).2.1
              (emitFiles (prefixFor rc item.relParts item.depth) so cancel item.files.length
                item.files 0 (c + 1) cnt).2.2 hff
            rw [hrr.1, List.append_nil]
            constructor
            · obtain ⟨t, ht⟩ := IHf.1
              refine ⟨t ++ rest.flatMap (renderItem rc so), ?_⟩
              rw [List.cons_append, ← List.append_assoc, ht, List.cons_append]
            · exact Or.inl hrr.2
          · rw [hff]
            have IHr := ih (emitFiles (prefixFor rc item.relParts item.depth) so cancel
              item.files.length item.files 0 (c + 1) cnt).2.1
              (emitFiles (prefixFor rc item.relParts item.depth) so cancel item.files.length
                item.files 0 (c + 1) cnt).2.2
            constructor
            · obtain ⟨t, ht⟩ := IHr.1
              refine ⟨t, ?_⟩
              rw [List.cons_append, List.append_assoc, ht, List.cons_append]
            · rcases IHr.2 with h | h
              · exact Or.inl h
              · refine Or.inr ?_
                rw [h, List.cons_append]
        · rw [if_neg hso]
          rw [hrend, if_neg hso]
          dsimp only
          have IHr := ih (c + 1) cnt
          constructor
          · obtain ⟨t, ht⟩ := IHr.1
            exact ⟨t, by simp [ht]⟩
          · rcases IHr.2 with h | h
            · exact Or.inl h
            · exact Or.inr (by rw [List.singleton_append, h])

theorem flatMap_prefix_mono {α β : Type} (f : α → List β) {l1 l2 : List α}
    (h : l1 <+: l2) : l1.flatMap f <+: l2.flatMap f := by
  obtain ⟨t, rfl⟩ := h
  rw [List.flatMap_append]
  exact List.prefix_append _ _

/-- C9 (confirmed): with a monotone stop event (once set it stays set — the
per-check reads of `stop_event.is_set()`), the text lines of a cancelled run
are a prefix (hence a subset) of the lines the same run emits without
cancellation, and the cancelled run still ends through the normal
end-of-stream marker with no error line appended: its queue is exactly its
text lines followed by the single end marker.  The flag is read once per
collected directory, once per emission iteration and once before each file
line, by construction of the walk. -/
theorem C9_cancellation (sd : String) (contents : List FSEntry) (maxD : Int)
    (so : String) (ign : List String) (cancel : Nat → Bool)
    (hmono : ∀ i j, i ≤ j → cancel i = true → cancel j = true) :
    outputLines (search_directory sd (some contents) maxD so ign cancel)
        <+: outputLines (search_directory sd (some contents) maxD so ign noCancel)
    ∧ (search_directory sd (some contents) maxD so ign cancel).queue
        = (outputLines (search_directory sd (some contents) maxD so ign cancel)).map QItem.line
            ++ [QItem.endMarker] := by
  have houtc : outputLines (search_directory sd (some contents) maxD so ign cancel)
      = (basename sd ++ "/")
        :: (emitItems contents so cancel (walkDir maxD ign cancel [] contents 0).1
            (walkDir maxD ign cancel [] contents 0).2.1 0).1 :=
    outputLines_mk _ _ _
  constructor
  · rw [houtc, outputLines_noCancel]
    have h1 := (emitItems_cancel_pfx contents so cancel hmono
      (walkDir maxD ign cancel [] contents 0).1
      (walkDir maxD ign cancel [] contents 0).2.1 0).1
    have h2 := flatMap_prefix_mono (renderItem contents so)
      (walkDir_cancel_pfx maxD ign cancel [] contents 0).1
    obtain ⟨t, ht⟩ := h1.trans h2
    exact ⟨t, by rw [List.cons_append, ht]⟩
  · rw [houtc]
    rfl

/-- Witness for C9: the monotone flag that becomes set from the third check
onward, on a concrete two-directory tree. -/
theorem C9_witness :
    outputLines (search_directory "a" (some [FSEntry.dir "b" [], FSEntry.dir "c" []])
        (-1) "both" [] (fun i => decide (2 ≤ i)))
        <+: outputLines (search_directory "a" (some [FSEntry.dir "b" [], FSEntry.dir "c" []])
          (-1) "both" [] noCancel)
    ∧ (search_directory "a" (some [FSEntry.dir "b" [], FSEntry.dir "c" []])
          (-1) "both" [] (fun i => decide (2 ≤ i))).queue
        = (outputLines (search_directory "a" (some [FSEntry.dir "b" [], FSEntry.dir "c" []])
            (-1) "both" [] (fun i => decide (2 ≤ i)))).map QItem.line
            ++ [QItem.endMarker] :=
  C9_cancellation "a" [FSEntry.dir "b" [], FSEntry.dir "c" []] (-1) "both" []
    (fun i => decide (2 ≤ i))
    (fun i j hij h2 => by
      simp only [decide_eq_true_eq] at h2 ⊢
      omega)

end PathSnap
